import Mathlib

/-!
# fct-parser: extraction of a discussion topic from a parsed HTML tree

Shallow embedding of `src/main.go`.

* Go `string` is modelled by `String`.
* `*html.Node` (package `golang.org/x/net/html`) is modelled by the tree `Node`; the
  sibling chain `FirstChild` / `NextSibling` is the list `children`.
* Pointer identity of nodes (`n != nAnchor`, `n == nAnchor`) is modelled by the position
  of the node in the tree: the list of child indices leading to it (`Path`).
* Closures over mutable variables (`exit`, `nAnchor`, the buffer, the result) become
  explicit state threaded through the traversal.
* `html.Render` belongs to the external library; every function that calls it takes the
  serializer as the parameter `render`, the bytes that `html.Render` writes for a node.
  `renderNode` is a concrete serializer used to evaluate examples.
-/

namespace FctParser

/-! ## Data model -/

/-- The node kinds of `html.NodeType`. -/
inductive NodeType where
  | ErrorNode
  | TextNode
  | DocumentNode
  | ElementNode
  | CommentNode
  | DoctypeNode
  | RawNode
  deriving DecidableEq, Repr

/-- An attribute of an element, `html.Attribute`. -/
structure Attribute where
  Namespace : String := ""
  Key : String
  Val : String
  deriving DecidableEq, Repr

/-- A node of the parsed tree, `html.Node`, with the list of its children in sibling order. -/
inductive Node where
  | mk (type : NodeType) (data : String) (attr : List Attribute) (children : List Node)

/-- The field `Type` of a node. -/
def Node.type : Node → NodeType
  | .mk t _ _ _ => t

/-- The field `Data` of a node. -/
def Node.data : Node → String
  | .mk _ d _ _ => d

/-- The field `Attr` of a node. -/
def Node.attr : Node → List Attribute
  | .mk _ _ a _ => a

/-- The children of a node, from `FirstChild` along `NextSibling`. -/
def Node.children : Node → List Node
  | .mk _ _ _ cs => cs

/-- The record `Comment` of the source. -/
structure Comment where
  Username : String := ""
  Role : String := ""
  Text : String := ""
  Datetime : String := ""
  DataID : String := ""
  deriving DecidableEq, Repr

/-- The record `Topic` of the source. -/
structure Topic where
  Question : Comment := {}
  LinkedQuestions : List Comment := []
  Comments : List Comment := []
  deriving DecidableEq, Repr

/-- Identity of a node inside the tree being traversed: the child indices from the root. -/
abbrev Path := List Nat

/-! ## Library functions on strings -/

/-- Splitting a character sequence at every space, as `strings.Split(s, " ")` does:
    a sequence with `k` spaces gives `k + 1` pieces, empty pieces included. -/
def splitChars : List Char → List (List Char)
  | [] => [[]]
  | c :: cs =>
    if c = ' ' then [] :: splitChars cs
    else
      match splitChars cs with
      | [] => [[c]]
      | piece :: pieces => (c :: piece) :: pieces

/-- The call `strings.Split(s, " ")`. -/
def splitSpace (s : String) : List String :=
  (splitChars s.data).map String.mk

/-- White space in the sense of `unicode.IsSpace`. -/
def isSpace (c : Char) : Bool :=
  let v := c.toNat
  v = 0x09 || v = 0x0a || v = 0x0b || v = 0x0c || v = 0x0d || v = 0x20 ||
  v = 0x85 || v = 0xa0 || v = 0x1680 || (0x2000 ≤ v && v ≤ 0x200a) ||
  v = 0x2028 || v = 0x2029 || v = 0x202f || v = 0x205f || v = 0x3000

/-- The call `strings.TrimSpace(s)`: leading and trailing white space removed. -/
def trimSpace (s : String) : String :=
  String.mk ((s.data.dropWhile isSpace).reverse.dropWhile isSpace).reverse

/-! ## Helpers of the source -/

/-- The loop of `getInnerText`: the data of the first text node among the siblings. -/
def getInnerTextLoop : List Node → String
  | [] => ""
  | el :: rest => if el.type = NodeType.TextNode then el.data else getInnerTextLoop rest

/-- The function `getInnerText`. -/
def getInnerText (node : Node) : String :=
  getInnerTextLoop node.children

/-- The loop of `getRequiredDataAttr` over the attributes. -/
def getRequiredDataAttrLoop (rda : String) : List Attribute → String
  | [] => ""
  | attr :: rest => if attr.Key = rda then attr.Val else getRequiredDataAttrLoop rda rest

/-- The function `getRequiredDataAttr`. -/
def getRequiredDataAttr (rda : String) (n : Node) : String :=
  getRequiredDataAttrLoop rda n.attr

/-- The inner loop of `nodeHasRequiredCssClass` over the pieces of one class value. -/
def classesContain (rcc : String) : List String → Bool
  | [] => false
  | cls :: rest => if cls = rcc then true else classesContain rcc rest

/-- The outer loop of `nodeHasRequiredCssClass` over the attributes. -/
def nodeHasRequiredCssClassLoop (rcc : String) : List Attribute → Bool
  | [] => false
  | attr :: rest =>
    if attr.Key = "class" ∧ classesContain rcc (splitSpace attr.Val) = true then true
    else nodeHasRequiredCssClassLoop rcc rest

/-- The function `nodeHasRequiredCssClass`. -/
def nodeHasRequiredCssClass (rcc : String) (n : Node) : Bool :=
  nodeHasRequiredCssClassLoop rcc n.attr

/-- The test `n.Type == html.ElementNode && nodeHasRequiredCssClass(cls, n)` that guards
    every extraction step. -/
def isClassed (cls : String) (n : Node) : Bool :=
  decide (n.type = NodeType.ElementNode) && nodeHasRequiredCssClass cls n

/-! ## parseComment -/

/-- The variables captured by the closure of `parseComment`. -/
structure CommentWalk where
  comment : Comment := {}
  nAnchor : Option Path := none
  bufInnerHtml : String := ""
  exit : Bool := false
  deriving DecidableEq, Repr

/-- The body of the closure of `parseComment` before its loop over the children, for the
    node `n` located at `p`. -/
def parseCommentEnter (render : Node → String) (p : Path) (n : Node)
    (s : CommentWalk) : CommentWalk :=
  let s1 : CommentWalk :=
    if isClassed "username" n = true then
      { s with comment := { s.comment with Username := getInnerText n } }
    else s
  let s2 : CommentWalk :=
    if isClassed "role" n = true then
      { s1 with comment := { s1.comment with Role := getInnerText n } }
    else s1
  let s3 : CommentWalk :=
    if isClassed "comment-text" n = true then
      { s2 with comment := { s2.comment with DataID := getRequiredDataAttr "data-id" n },
                nAnchor := some p }
    else s2
  let s4 : CommentWalk :=
    if isClassed "datetime" n = true then
      { s3 with comment := { s3.comment with Datetime := trimSpace (getInnerText n) },
                exit := true }
    else s3
  match s4.nAnchor with
  | none => s4
  | some a =>
    if p ≠ a then { s4 with bufInnerHtml := s4.bufInnerHtml ++ render n } else s4

/-- The body of the closure of `parseComment` after its loop over the children. -/
def parseCommentLeave (p : Path) (s : CommentWalk) : CommentWalk :=
  if s.nAnchor = some p then
    { s with comment := { s.comment with Text := s.bufInnerHtml },
             bufInnerHtml := "", nAnchor := none }
  else s

mutual
/-- The closure `f` of `parseComment`, applied to the node `n` located at `p`. -/
def parseCommentF (render : Node → String) (n : Node) (p : Path)
    (s : CommentWalk) : CommentWalk :=
  match n with
  | .mk _ _ _ cs =>
    parseCommentLeave p (parseCommentLoop render cs p 0 (parseCommentEnter render p n s))
/-- The loop of `f` over the children of the node at `p`, from the child of index `i`. -/
def parseCommentLoop (render : Node → String) (cs : List Node) (p : Path) (i : Nat)
    (s : CommentWalk) : CommentWalk :=
  match cs with
  | [] => s
  | c :: rest =>
    if s.exit = true then s
    else parseCommentLoop render rest p (i + 1) (parseCommentF render c (p ++ [i]) s)
end

/-- The function `parseComment`. -/
def parseComment (render : Node → String) (n : Node) : Comment :=
  (parseCommentF render n [] {}).comment

/-! ## parseLinkedQuestions -/

mutual
/-- The closure `f` of `parseLinkedQuestions`; `comments` is the slice collected so far. -/
def parseLinkedQuestionsF (render : Node → String) (n : Node)
    (comments : List Comment) : List Comment :=
  match n with
  | .mk _ _ _ cs =>
    parseLinkedQuestionsLoop render cs
      (if isClassed "linked-question" n = true then comments ++ [parseComment render n]
       else comments)
/-- The loop of `f` over the children. -/
def parseLinkedQuestionsLoop (render : Node → String) (cs : List Node)
    (comments : List Comment) : List Comment :=
  match cs with
  | [] => comments
  | c :: rest =>
    parseLinkedQuestionsLoop render rest (parseLinkedQuestionsF render c comments)
end

/-- The function `parseLinkedQuestions`. -/
def parseLinkedQuestions (render : Node → String) (n : Node) : List Comment :=
  parseLinkedQuestionsF render n []

/-! ## parseQuestionView -/

/-- The variables captured by the closure of `parseQuestionView`. -/
structure QuestionWalk where
  topic : Topic
  exit : Bool := false
  deriving DecidableEq, Repr

/-- The body of the closure of `parseQuestionView` before its loop over the children. -/
def parseQuestionViewEnter (render : Node → String) (n : Node)
    (s : QuestionWalk) : QuestionWalk :=
  let s1 : QuestionWalk :=
    if isClassed "question-view" n = true then
      { s with topic := { s.topic with Question := parseComment render n } }
    else s
  if isClassed "linked-questions" n = true then
    { topic := { s1.topic with LinkedQuestions := parseLinkedQuestions render n },
      exit := true }
  else s1

mutual
/-- The closure `f` of `parseQuestionView`. -/
def parseQuestionViewF (render : Node → String) (n : Node)
    (s : QuestionWalk) : QuestionWalk :=
  match n with
  | .mk _ _ _ cs => parseQuestionViewLoop render cs (parseQuestionViewEnter render n s)
/-- The loop of `f` over the children, left as soon as `exit` is set. -/
def parseQuestionViewLoop (render : Node → String) (cs : List Node)
    (s : QuestionWalk) : QuestionWalk :=
  match cs with
  | [] => s
  | c :: rest =>
    if s.exit = true then s
    else parseQuestionViewLoop render rest (parseQuestionViewF render c s)
end

/-- The function `parseQuestionView`. -/
def parseQuestionView (render : Node → String) (n : Node) (topic : Topic) : Topic :=
  (parseQuestionViewF render n { topic := topic }).topic

/-! ## parseCommentList -/

/-- The inner loop of `parseCommentList` over the direct children of a comment-list. -/
def parseCommentItems (render : Node → String) (cls : List Node)
    (comments : List Comment) : List Comment :=
  match cls with
  | [] => comments
  | cl :: rest =>
    parseCommentItems render rest
      (if isClassed "comment-item" cl = true then comments ++ [parseComment render cl]
       else comments)

mutual
/-- The closure `f` of `parseCommentList`; `comments` is the slice collected so far. -/
def parseCommentListF (render : Node → String) (n : Node)
    (comments : List Comment) : List Comment :=
  match n with
  | .mk _ _ _ cs =>
    parseCommentListLoop render cs
      (if isClassed "comment-list" n = true then parseCommentItems render cs comments
       else comments)
/-- The loop of `f` over the children. -/
def parseCommentListLoop (render : Node → String) (cs : List Node)
    (comments : List Comment) : List Comment :=
  match cs with
  | [] => comments
  | c :: rest =>
    parseCommentListLoop render rest (parseCommentListF render c comments)
end

/-- The function `parseCommentList`. -/
def parseCommentList (render : Node → String) (n : Node) (topic : Topic) : Topic :=
  { topic with Comments := parseCommentListF render n [] }

/-! ## parseTopic -/

/-- The method `parseTopic`. -/
def parseTopic (render : Node → String) (doc : Node) (topic : Topic) : Topic :=
  parseCommentList render doc (parseQuestionView render doc topic)

/-! ## Traversal order -/

mutual
/-- The nodes of a subtree in pre-order (the node, then the subtrees of its children). -/
def Node.preorder : Node → List Node
  | .mk t d a cs => Node.mk t d a cs :: preorderList cs
/-- The nodes of a sibling list in pre-order. -/
def preorderList : List Node → List Node
  | [] => []
  | c :: rest => c.preorder ++ preorderList rest
end

/-! ## A concrete serializer -/

/-- The replacement of one character by `html.EscapeString`. -/
def escapeChar (c : Char) : List Char :=
  if c = '&' then "&amp;".data
  else if c = Char.ofNat 39 then "&#39;".data
  else if c = '<' then "&lt;".data
  else if c = '>' then "&gt;".data
  else if c = '"' then "&#34;".data
  else if c = '\r' then "&#13;".data
  else [c]

/-- Escaped text, as the library writes text nodes and attribute values. -/
def escapeString (s : String) : String :=
  String.mk (s.data.flatMap escapeChar)

/-- The attributes of a start tag, each preceded by a space. -/
def renderAttrs : List Attribute → String
  | [] => ""
  | a :: rest =>
    " " ++ (if a.Namespace = "" then "" else a.Namespace ++ ":") ++ a.Key ++ "=\""
      ++ escapeString a.Val ++ "\"" ++ renderAttrs rest

/-- The elements that have no end tag. -/
def voidElements : List String :=
  ["area", "base", "br", "col", "embed", "hr", "img", "input", "keygen", "link", "meta",
   "param", "source", "track", "wbr"]

mutual
/-- A serializer in the manner of `html.Render` for documents, elements and text nodes:
    escaped text, start tag with attributes, children, end tag. It is used to evaluate
    examples; the general statements hold of every serializer `render`. -/
def renderNode : Node → String
  | .mk t d a cs =>
    match t with
    | NodeType.TextNode => escapeString d
    | NodeType.DocumentNode => renderNodes cs
    | NodeType.ElementNode =>
      if d ∈ voidElements then "<" ++ d ++ renderAttrs a ++ "/>"
      else "<" ++ d ++ renderAttrs a ++ ">" ++ renderNodes cs ++ "</" ++ d ++ ">"
    | NodeType.CommentNode => "<!--" ++ d ++ "-->"
    | NodeType.DoctypeNode => "<!DOCTYPE " ++ d ++ ">"
    | NodeType.RawNode => d
    | NodeType.ErrorNode => ""
/-- The serialization of a sibling list. -/
def renderNodes : List Node → String
  | [] => ""
  | c :: rest => renderNode c ++ renderNodes rest
end

/-! ## Example trees -/

/-- A text node. -/
def textNode (s : String) : Node :=
  Node.mk NodeType.TextNode s [] []

/-- An element with the given tag, attributes and children. -/
def element (tag : String) (attr : List Attribute) (children : List Node) : Node :=
  Node.mk NodeType.ElementNode tag attr children

/-- An element whose only attribute is `class`. -/
def classed (tag cls : String) (children : List Node) : Node :=
  element tag [{ Key := "class", Val := cls }] children

/-- The document node around a body. -/
def document (body : List Node) : Node :=
  Node.mk NodeType.DocumentNode "" []
    [element "html" [] [element "head" [] [], element "body" [] body]]

/-- The paragraph `<p>Hello</p>`. -/
def helloParagraph : Node :=
  element "p" [] [textNode "Hello"]

/-- The document of the round-trip scenario. -/
def roundTripDoc : Node :=
  document
    [classed "div" "question-view"
      [classed "span" "username" [textNode "alice"],
       classed "span" "role" [textNode "asker"],
       element "div" [{ Key := "class", Val := "comment-text" }, { Key := "data-id", Val := "q1" }]
         [helloParagraph],
       classed "span" "datetime" [textNode " 2024-01-01 "]]]

/-- A record whose body holds nested markup: `<p>Hi <b>there</b></p>`. -/
def nestedBodyRecord : Node :=
  classed "div" "comment-item"
    [element "div" [{ Key := "class", Val := "comment-text" }, { Key := "data-id", Val := "c7" }]
      [element "p" [] [textNode "Hi ", element "b" [] [textNode "there"]]]]

/-! ## Positions of the extracted comment items -/

/-- The records that one comment-list element contributes: `parseComment` of each of its
    direct children classed `comment-item`, in sibling order. -/
def commentItemsOf (render : Node → String) (l : Node) : List Comment :=
  (l.children.filter (isClassed "comment-item")).map (parseComment render)

/-- The inner loop of `parseCommentList` over the children of the node at `p`, from the
    child of index `i`, recording the position and the node of every extracted child
    instead of its record. -/
def commentItemsAt (cls : List Node) (p : Path) (i : Nat) : List (Path × Node) :=
  match cls with
  | [] => []
  | cl :: rest =>
    (if isClassed "comment-item" cl = true then [(p ++ [i], cl)] else [])
      ++ commentItemsAt rest p (i + 1)

mutual
/-- The traversal of `parseCommentList` from the node `n` located at `p`, recording the
    position and the node of every extracted element, in the order of extraction. -/
def extractedItemsF (n : Node) (p : Path) : List (Path × Node) :=
  match n with
  | .mk _ _ _ cs =>
    (if isClassed "comment-list" n = true then commentItemsAt cs p 0 else [])
      ++ extractedItemsLoop cs p 0
/-- The loop of that traversal over the children of the node at `p`. -/
def extractedItemsLoop (cs : List Node) (p : Path) (i : Nat) : List (Path × Node) :=
  match cs with
  | [] => []
  | c :: rest => extractedItemsF c (p ++ [i]) ++ extractedItemsLoop rest p (i + 1)
end

mutual
/-- The nodes of the subtree of `n`, located at `p`, in pre-order, each with its position. -/
def preorderAt (n : Node) (p : Path) : List (Path × Node) :=
  match n with
  | .mk _ _ _ cs => (p, n) :: preorderAtList cs p 0
/-- The nodes below the children of the node at `p` in pre-order, with their positions. -/
def preorderAtList (cs : List Node) (p : Path) (i : Nat) : List (Path × Node) :=
  match cs with
  | [] => []
  | c :: rest => preorderAt c (p ++ [i]) ++ preorderAtList rest p (i + 1)
end

/-- A record with a username and a datetime, followed by further content. -/
def simpleItem (user date : String) (more : List Node) : Node :=
  classed "div" "comment-item"
    ([classed "span" "username" [textNode user], classed "span" "datetime" [textNode date]]
      ++ more)

/-- A comment-list with two comment-item children mixed with other children, one of which
    holds a deeper comment-item. -/
def twoItemsList : Node :=
  classed "div" "comment-list"
    [textNode "\n",
     simpleItem "ann" "d1" [],
     element "div" [] [simpleItem "deep" "d0" []],
     simpleItem "bob" "d2" []]

/-- A document with one comment-list and a comment-item outside it. -/
def twoItemsDoc : Node :=
  document [simpleItem "outside" "d9" [], twoItemsList]

/-- The comment-list with the items `bob`. -/
def nestedInnerList : Node :=
  classed "div" "comment-list" [simpleItem "bob" "d2" []]

/-- A comment-list whose first comment-item holds another comment-list. -/
def nestedOuterList : Node :=
  classed "div" "comment-list"
    [simpleItem "ann" "d1" [nestedInnerList], simpleItem "cid" "d3" []]

/-- A document with a comment-list nested in a comment-item of another comment-list. -/
def nestedListDoc : Node :=
  document [nestedOuterList]

/-- A document with two comment-lists side by side. -/
def twoListsDoc : Node :=
  document
    [classed "div" "comment-list" [simpleItem "ann" "d1" []],
     classed "div" "comment-list" [simpleItem "bob" "d2" [], simpleItem "cid" "d3" []]]

/-- A document without any classed element. -/
def plainDoc : Node :=
  document [element "p" [] [textNode "nothing here"]]

/-! ## The question scan as a run over the pre-order -/

/-- The steps of the closure of `parseQuestionView` over a list of nodes: each node is
    entered unless `exit` is already set. -/
def questionViewRun (render : Node → String) : List Node → QuestionWalk → QuestionWalk
  | [], s => s
  | x :: xs, s =>
    if s.exit = true then s else questionViewRun render xs (parseQuestionViewEnter render x s)

/-- A question region with only a username. -/
def questionView (user : String) : Node :=
  classed "div" "question-view" [classed "span" "username" [textNode user]]

/-- A linked question with only a username. -/
def linkedQuestion (user : String) : Node :=
  classed "li" "linked-question" [classed "span" "username" [textNode user]]

/-- A document with two question regions and no linked-questions block. -/
def twoQuestionsDoc : Node :=
  document [questionView "first", element "div" [] [questionView "second"]]

/-- A linked-questions block with two linked questions. -/
def linkedBlock : Node :=
  classed "ul" "linked-questions" [linkedQuestion "l1", linkedQuestion "l2"]

/-- A document whose linked-questions block lies between two question regions. -/
def linkedDoc : Node :=
  document [questionView "early", element "div" [] [linkedBlock], questionView "late"]

/-- A document whose only question region comes after the linked-questions block. -/
def lateQuestionDoc : Node :=
  document [linkedBlock, questionView "late"]

/-! ## Concatenated serializations -/

/-- The serializations of a list of nodes, one after the other. -/
def renderAll (render : Node → String) : List Node → String
  | [] => ""
  | x :: xs => render x ++ renderAll render xs

/-- The datetime element `<span class="datetime">now</span>`. -/
def nowStamp : Node :=
  classed "span" "datetime" [textNode "now"]

/-- The body `Hi<span class="datetime">now</span>tail` inside a comment-text anchor. -/
def stampedAnchor : Node :=
  element "div" [{ Key := "class", Val := "comment-text" }, { Key := "data-id", Val := "c3" }]
    [textNode "Hi", nowStamp, textNode "tail"]

/-- A record whose datetime element lies inside the comment-text anchor. -/
def stampedRecord : Node :=
  classed "div" "comment-item" [classed "span" "username" [textNode "ann"], stampedAnchor]

/-! ## The rows of the CSV file -/

/-- The header row of `writeCSVFile`. -/
def headerRow : List String :=
  ["Username", "Role", "Text", "Datetime"]

/-- The function `addCommentData`. -/
def addCommentData (data : List (List String)) (comment : Comment) : List (List String) :=
  data ++ [[comment.Username, comment.Role, comment.Text, comment.Datetime]]

/-- The slice `data` that `writeCSVFile` assembles and then hands, row by row, to the CSV
    writer. -/
def writeCSVFileData (topic : Topic) : List (List String) :=
  let data0 : List (List String) := [headerRow]
  let data1 : List (List String) :=
    data0 ++ [[topic.Question.Username, topic.Question.Role, topic.Question.Text,
      topic.Question.Datetime]]
  let data2 : List (List String) := topic.LinkedQuestions.foldl addCommentData data1
  topic.Comments.foldl addCommentData data2

/-- The row of four fields of a record. -/
def recordRow (c : Comment) : List String :=
  [c.Username, c.Role, c.Text, c.Datetime]

/-- A topic with the data_id of every record replaced. -/
def Topic.withDataIDs (f : Comment → String) (topic : Topic) : Topic :=
  { Question := { topic.Question with DataID := f topic.Question },
    LinkedQuestions := topic.LinkedQuestions.map (fun c => { c with DataID := f c }),
    Comments := topic.Comments.map (fun c => { c with DataID := f c }) }

/-- A topic with a question, one linked question and two comments. -/
def sampleTopic : Topic :=
  { Question := { Username := "ann", Role := "asker", Text := "q?", Datetime := "d0",
                  DataID := "q1" },
    LinkedQuestions := [{ Username := "lee", Text := "l", DataID := "l1" }],
    Comments := [{ Username := "bob", Text := "a", Datetime := "d1", DataID := "c1" },
                 { Username := "cid", Text := "b", Datetime := "d2" }] }

/-! ## Tokens of a class value -/

/-- The sequence `t` is a maximal space-free non-empty part of `v`: it is not empty, holds
    no space, and occurs in `v` with the beginning of `v` or a space right before it and
    the end of `v` or a space right after it. -/
def IsSpaceFreeToken (t v : List Char) : Prop :=
  t ≠ [] ∧ ' ' ∉ t ∧
    ∃ pre post : List Char, v = pre ++ t ++ post ∧
      (pre = [] ∨ pre.getLast? = some ' ') ∧ (post = [] ∨ post.head? = some ' ')

/-! ## Further example records -/

/-- A record whose datetime element is followed by a second username and a second
    datetime element. -/
def earlyStampRecord : Node :=
  classed "div" "comment-item"
    [classed "span" "username" [textNode "ann"],
     classed "span" "datetime" [element "b" [] [], textNode "\n  2024-05-06 10:00\t", textNode "x"],
     classed "span" "username" [textNode "late"],
     classed "span" "datetime" [textNode "2030-01-01"]]

/-- The datetime element `now` followed by a username element, both inside a `div`. -/
def stampThenLate : Node :=
  element "div" [] [nowStamp, classed "span" "username" [textNode "late"]]

/-- A record whose anchor holds `stampThenLate`: the username element comes after the
    datetime element. -/
def lateUserRecord : Node :=
  classed "div" "comment-item" [classed "div" "comment-text" [stampThenLate]]

/-- The record `lateUserRecord` without the username element that follows the datetime
    element. -/
def lateUserRecordCut : Node :=
  classed "div" "comment-item" [classed "div" "comment-text" [element "div" [] [nowStamp]]]

/-- A record whose datetime element comes before its comment-text element. -/
def stampFirstRecord : Node :=
  classed "div" "comment-item"
    [classed "span" "datetime" [textNode "d"],
     classed "div" "comment-text" [element "p" [] [textNode "x"]]]

/-- A comment-text element holding the text `a`, a nested comment-text element with the
    text `b`, and the text `c`. -/
def outerAnchor : Node :=
  element "div" [{ Key := "class", Val := "comment-text" }, { Key := "data-id", Val := "a1" }]
    [textNode "a",
     element "span" [{ Key := "class", Val := "comment-text" }, { Key := "data-id", Val := "b1" }]
       [textNode "b"],
     textNode "c"]

/-- A record whose comment-text element holds another comment-text element. -/
def nestedAnchorRecord : Node :=
  classed "div" "comment-item" [outerAnchor]

/-! ## Records that agree up to their first datetime element -/

/-- Two nodes look alike to the closure of `parseComment`: same type, same attributes and
    same first text-node child; only their serialization may differ. -/
def SameLabel (n1 n2 : Node) : Prop :=
  n1.type = n2.type ∧ n1.attr = n2.attr ∧ getInnerText n1 = getInnerText n2

/-- The trees `r1` and `r2` both hold a datetime element and agree up to the first one in
    pre-order: the nodes on the way down to it look alike, the subtrees that come before it
    are identical and hold no datetime element, and what comes after it, its own children
    included, is free in both. With `clear = true`, moreover, no node above the datetime
    element is classed comment-text. -/
inductive AgreeToDatetime (clear : Bool) : Node → Node → Prop where
  | here (d1 d2 : Node) :
      isClassed "datetime" d1 = true → SameLabel d1 d2 → AgreeToDatetime clear d1 d2
  | step (n1 n2 c1 c2 : Node) (pre post1 post2 : List Node) :
      isClassed "datetime" n1 = false → SameLabel n1 n2 →
      (clear = true → isClassed "comment-text" n1 = false) →
      n1.children = pre ++ c1 :: post1 → n2.children = pre ++ c2 :: post2 →
      (∀ x ∈ preorderList pre, isClassed "datetime" x = false) →
      AgreeToDatetime clear c1 c2 → AgreeToDatetime clear n1 n2

/-- Two states of the traversal that agree on the anchor, on the exit flag and on the
    username, role, data_id and datetime collected so far. -/
def SameFields (s1 s2 : CommentWalk) : Prop :=
  s1.nAnchor = s2.nAnchor ∧ s1.exit = s2.exit ∧
  s1.comment.Username = s2.comment.Username ∧ s1.comment.Role = s2.comment.Role ∧
  s1.comment.DataID = s2.comment.DataID ∧ s1.comment.Datetime = s2.comment.Datetime

/-- The datetime element `<span class="datetime"><b class="username">late</b>now</span>`:
    a username element lies below it. -/
def stampHoldingUser : Node :=
  classed "span" "datetime" [classed "b" "username" [textNode "late"], textNode "now"]

/-- A record whose anchor holds `stampHoldingUser`. -/
def userInStampRecord : Node :=
  classed "div" "comment-item" [classed "div" "comment-text" [stampHoldingUser]]

/-- The record `userInStampRecord` without the username element below the datetime
    element. -/
def userInStampRecordCut : Node :=
  classed "div" "comment-item" [classed "div" "comment-text" [nowStamp]]

/-- A record whose datetime element is followed by a username element. -/
def stampThenUserRecord : Node :=
  classed "div" "comment-item" [nowStamp, classed "span" "username" [textNode "late"]]

/-- The record `stampThenUserRecord` without the username element. -/
def stampOnlyRecord : Node :=
  classed "div" "comment-item" [nowStamp]

/-! ## Theorems -/

/-! ### Unfolding equations and induction over trees -/

theorem parseCommentF_mk (render : Node → String) (t : NodeType) (d : String)
    (a : List Attribute) (cs : List Node) (p : Path) (s : CommentWalk) :
    parseCommentF render (Node.mk t d a cs) p s =
      parseCommentLeave p
        (parseCommentLoop render cs p 0 (parseCommentEnter render p (Node.mk t d a cs) s)) := by
  rw [parseCommentF]

theorem parseCommentLoop_nil (render : Node → String) (p : Path) (i : Nat) (s : CommentWalk) :
    parseCommentLoop render [] p i s = s := by
  rw [parseCommentLoop]

theorem parseCommentLoop_cons (render : Node → String) (c : Node) (rest : List Node)
    (p : Path) (i : Nat) (s : CommentWalk) :
    parseCommentLoop render (c :: rest) p i s =
      if s.exit = true then s
      else parseCommentLoop render rest p (i + 1) (parseCommentF render c (p ++ [i]) s) := by
  rw [parseCommentLoop]

theorem parseLinkedQuestionsF_mk (render : Node → String) (t : NodeType) (d : String)
    (a : List Attribute) (cs : List Node) (comments : List Comment) :
    parseLinkedQuestionsF render (Node.mk t d a cs) comments =
      parseLinkedQuestionsLoop render cs
        (if isClassed "linked-question" (Node.mk t d a cs) = true then
          comments ++ [parseComment render (Node.mk t d a cs)]
         else comments) := by
  rw [parseLinkedQuestionsF]

theorem parseLinkedQuestionsLoop_cons (render : Node → String) (c : Node) (rest : List Node)
    (comments : List Comment) :
    parseLinkedQuestionsLoop render (c :: rest) comments =
      parseLinkedQuestionsLoop render rest (parseLinkedQuestionsF render c comments) := by
  rw [parseLinkedQuestionsLoop]

theorem parseQuestionViewF_mk (render : Node → String) (t : NodeType) (d : String)
    (a : List Attribute) (cs : List Node) (s : QuestionWalk) :
    parseQuestionViewF render (Node.mk t d a cs) s =
      parseQuestionViewLoop render cs (parseQuestionViewEnter render (Node.mk t d a cs) s) := by
  rw [parseQuestionViewF]

theorem parseQuestionViewLoop_nil (render : Node → String) (s : QuestionWalk) :
    parseQuestionViewLoop render [] s = s := by
  rw [parseQuestionViewLoop]

theorem parseQuestionViewLoop_cons (render : Node → String) (c : Node) (rest : List Node)
    (s : QuestionWalk) :
    parseQuestionViewLoop render (c :: rest) s =
      if s.exit = true then s
      else parseQuestionViewLoop render rest (parseQuestionViewF render c s) := by
  rw [parseQuestionViewLoop]

theorem parseCommentListF_mk (render : Node → String) (t : NodeType) (d : String)
    (a : List Attribute) (cs : List Node) (comments : List Comment) :
    parseCommentListF render (Node.mk t d a cs) comments =
      parseCommentListLoop render cs
        (if isClassed "comment-list" (Node.mk t d a cs) = true then
          parseCommentItems render cs comments
         else comments) := by
  rw [parseCommentListF]

theorem parseCommentListLoop_nil (render : Node → String) (comments : List Comment) :
    parseCommentListLoop render [] comments = comments := by
  rw [parseCommentListLoop]

theorem parseCommentListLoop_cons (render : Node → String) (c : Node) (rest : List Node)
    (comments : List Comment) :
    parseCommentListLoop render (c :: rest) comments =
      parseCommentListLoop render rest (parseCommentListF render c comments) := by
  rw [parseCommentListLoop]

theorem preorder_mk (t : NodeType) (d : String) (a : List Attribute) (cs : List Node) :
    (Node.mk t d a cs).preorder = Node.mk t d a cs :: preorderList cs := by
  rw [Node.preorder]

theorem preorderList_nil : preorderList [] = [] := by
  rw [preorderList]

theorem preorderList_cons (c : Node) (rest : List Node) :
    preorderList (c :: rest) = c.preorder ++ preorderList rest := by
  rw [preorderList]

/-- Simultaneous induction over a tree and over its sibling lists. -/
theorem Node.induction {P : Node → Prop} {Q : List Node → Prop}
    (hmk : ∀ t d a cs, Q cs → P (Node.mk t d a cs)) (hnil : Q [])
    (hcons : ∀ c rest, P c → Q rest → Q (c :: rest)) : (∀ n, P n) ∧ (∀ cs, Q cs) :=
  ⟨fun n => Node.rec (motive_1 := P) (motive_2 := Q) hmk hnil hcons n,
   fun cs => Node.rec_1 (motive_1 := P) (motive_2 := Q) hmk hnil hcons cs⟩

/-! ### The class matcher -/

theorem classesContain_iff (rcc : String) (l : List String) :
    classesContain rcc l = true ↔ rcc ∈ l := by
  induction l with
  | nil => simp [classesContain]
  | cons cls rest ih =>
    by_cases h : cls = rcc
    · simp [classesContain, h]
    · have h2 : ¬ rcc = cls := fun e => h e.symm
      simp [classesContain, h, h2, ih]

theorem nodeHasRequiredCssClassLoop_iff (rcc : String) (l : List Attribute) :
    nodeHasRequiredCssClassLoop rcc l = true ↔
      ∃ a ∈ l, a.Key = "class" ∧ rcc ∈ splitSpace a.Val := by
  induction l with
  | nil => simp [nodeHasRequiredCssClassLoop]
  | cons attr rest ih =>
    by_cases h : attr.Key = "class" ∧ classesContain rcc (splitSpace attr.Val) = true
    · simp only [nodeHasRequiredCssClassLoop, h, and_self, if_true, true_iff]
      exact ⟨attr, List.mem_cons_self _ _, h.1, (classesContain_iff _ _).1 h.2⟩
    · rw [nodeHasRequiredCssClassLoop, if_neg h, ih]
      constructor
      · rintro ⟨a, ha, hk, hm⟩
        exact ⟨a, List.mem_cons_of_mem _ ha, hk, hm⟩
      · rintro ⟨a, ha, hk, hm⟩
        rcases List.mem_cons.1 ha with rfl | ha
        · exact absurd ⟨hk, (classesContain_iff _ _).2 hm⟩ h
        · exact ⟨a, ha, hk, hm⟩

theorem splitChars_ne_nil (l : List Char) : splitChars l ≠ [] := by
  cases l with
  | nil => simp [splitChars]
  | cons c cs =>
    rw [splitChars]
    split_ifs
    · simp
    · split <;> simp

/-- The pieces of `splitChars`, joined again with single spaces, give the sequence back. -/
theorem splitChars_intercalate (l : List Char) :
    List.intercalate [' '] (splitChars l) = l := by
  induction l with
  | nil => simp [splitChars, List.intercalate]
  | cons c cs ih =>
    rw [splitChars]
    split_ifs with h
    · obtain ⟨x, xs, hx⟩ := List.exists_cons_of_ne_nil (splitChars_ne_nil cs)
      rw [hx] at ih ⊢
      simp [List.intercalate, List.intersperse] at ih ⊢
      exact ⟨h.symm, ih⟩
    · obtain ⟨x, xs, hx⟩ := List.exists_cons_of_ne_nil (splitChars_ne_nil cs)
      rw [hx] at ih ⊢
      cases xs with
      | nil => simp [List.intercalate, List.intersperse] at ih ⊢; exact ih
      | cons y ys => simp [List.intercalate, List.intersperse] at ih ⊢; exact ih

/-- No piece of `splitChars` holds a space. -/
theorem splitChars_no_space (l : List Char) : ∀ piece ∈ splitChars l, ' ' ∉ piece := by
  induction l with
  | nil => simp [splitChars]
  | cons c cs ih =>
    rw [splitChars]
    split_ifs with h
    · intro piece hp
      rcases List.mem_cons.1 hp with rfl | hp
      · simp
      · exact ih piece hp
    · obtain ⟨x, xs, hx⟩ := List.exists_cons_of_ne_nil (splitChars_ne_nil cs)
      rw [hx] at ih ⊢
      intro piece hp
      rcases List.mem_cons.1 hp with rfl | hp
      · intro hmem
        rcases List.mem_cons.1 hmem with h1 | h1
        · exact h h1.symm
        · exact ih x (List.mem_cons_self _ _) h1
      · exact ih piece (List.mem_cons_of_mem _ hp)

/-- Claim C4: `nodeHasRequiredCssClass(t, n)` is true exactly when `n` has an attribute with key
    `class` whose value, split at every single space, has a piece equal to `t`; a node with
    no class attribute gives false; `linked-questions` does not match the target
    `linked-question`, and the class value `a<TAB>b` does not match the target `a`. -/
theorem C4_class_matcher :
    (∀ (t : String) (n : Node),
      nodeHasRequiredCssClass t n = true ↔
        ∃ a ∈ n.attr, a.Key = "class" ∧ t ∈ splitSpace a.Val) ∧
    (∀ (t : String) (n : Node),
      (∀ a ∈ n.attr, a.Key ≠ "class") → nodeHasRequiredCssClass t n = false) ∧
    nodeHasRequiredCssClass "linked-question" (classed "div" "linked-questions" []) = false ∧
    nodeHasRequiredCssClass "a" (classed "div" "a\tb" []) = false := by
  refine ⟨fun t n => nodeHasRequiredCssClassLoop_iff t n.attr, ?_, by decide, by decide⟩
  intro t n h
  cases hb : nodeHasRequiredCssClass t n with
  | false => rfl
  | true =>
    obtain ⟨a, ha, hk, _⟩ := (nodeHasRequiredCssClassLoop_iff t n.attr).1 hb
    exact absurd hk (h a ha)

/-- Claim C4, applied: an element whose only attribute is `id` is not classed `username`, and an
    element classed `block username` is. -/
theorem C4_class_matcher_witness :
    nodeHasRequiredCssClass "username"
        (element "div" [{ Key := "id", Val := "username" }] []) = false ∧
    ∃ a ∈ (classed "span" "block username" []).attr,
      a.Key = "class" ∧ "username" ∈ splitSpace a.Val :=
  ⟨C4_class_matcher.2.1 "username" (element "div" [{ Key := "id", Val := "username" }] [])
      (by decide),
   (C4_class_matcher.1 "username" (classed "span" "block username" [])).1 (by decide)⟩

/-! ### The round-trip scenario and the body of a record -/

/-- Claim C1: on the round-trip document the code yields username `alice`, role `asker`,
    datetime `2024-01-01` and data_id `q1`, but the text is the serialization of the
    paragraph followed by the serialization of its text node, `<p>Hello</p>Hello`,
    not `<p>Hello</p>`. -/
theorem C1_round_trip_question :
    (∀ render : Node → String,
      (parseTopic render roundTripDoc {}).Question =
        { Username := "alice", Role := "asker",
          Text := render helloParagraph ++ render (textNode "Hello"),
          Datetime := "2024-01-01", DataID := "q1" }) ∧
    renderNode helloParagraph = "<p>Hello</p>" ∧
    renderNode (textNode "Hello") = "Hello" ∧
    (parseTopic renderNode roundTripDoc {}).Question =
      { Username := "alice", Role := "asker", Text := "<p>Hello</p>Hello",
        Datetime := "2024-01-01", DataID := "q1" } :=
  ⟨by intro render; rfl, by decide, by decide, by decide⟩

/-- Claim C2: for the body `<p>Hi <b>there</b></p>` the code writes one serialization for every
    node below the anchor, so the text is `<p>Hi <b>there</b></p>Hi <b>there</b>there`,
    whereas the serializations of the direct children of the anchor give
    `<p>Hi <b>there</b></p>`. -/
theorem C2_nested_body_text :
    (∀ render : Node → String,
      (parseComment render nestedBodyRecord).Text =
        render (element "p" [] [textNode "Hi ", element "b" [] [textNode "there"]]) ++
          render (textNode "Hi ") ++ render (element "b" [] [textNode "there"]) ++
          render (textNode "there")) ∧
    renderNodes [element "p" [] [textNode "Hi ", element "b" [] [textNode "there"]]] =
      "<p>Hi <b>there</b></p>" ∧
    (parseComment renderNode nestedBodyRecord).Text =
      "<p>Hi <b>there</b></p>Hi <b>there</b>there" :=
  ⟨by intro render; rfl, by decide, by decide⟩

/-! ### The datetime element inside the body -/

theorem parseCommentEnter_exit (render : Node → String) (p : Path) (n : Node) (s : CommentWalk) :
    (parseCommentEnter render p n s).exit = (s.exit || isClassed "datetime" n) := by
  simp only [parseCommentEnter]
  split <;> split_ifs <;> simp_all

theorem parseCommentEnter_text (render : Node → String) (p : Path) (n : Node) (s : CommentWalk) :
    (parseCommentEnter render p n s).comment.Text = s.comment.Text := by
  simp only [parseCommentEnter]
  split <;> split_ifs <;> simp_all

theorem parseCommentEnter_nAnchor (render : Node → String) (p : Path) (n : Node)
    (s : CommentWalk) :
    (parseCommentEnter render p n s).nAnchor =
      if isClassed "comment-text" n = true then some p else s.nAnchor := by
  simp only [parseCommentEnter]
  split <;> split_ifs <;> simp_all

theorem parseCommentEnter_buf (render : Node → String) (p : Path) (n : Node)
    (s : CommentWalk) :
    (parseCommentEnter render p n s).bufInnerHtml =
      match (if isClassed "comment-text" n = true then some p else s.nAnchor) with
      | none => s.bufInnerHtml
      | some a => if p ≠ a then s.bufInnerHtml ++ render n else s.bufInnerHtml := by
  simp only [parseCommentEnter]
  split <;> split_ifs <;> simp_all

theorem parseCommentLeave_of_ne (p : Path) (s : CommentWalk) (h : s.nAnchor ≠ some p) :
    parseCommentLeave p s = s := by
  rw [parseCommentLeave, if_neg h]

theorem parseCommentLoop_exit (render : Node → String) (cs : List Node) (p : Path) (i : Nat)
    (s : CommentWalk) (h : s.exit = true) : parseCommentLoop render cs p i s = s := by
  cases cs with
  | nil => exact parseCommentLoop_nil render p i s
  | cons c rest => rw [parseCommentLoop_cons, if_pos h]

theorem path_child_ne_self (p : Path) (i : Nat) : p ++ [i] ≠ p := by
  intro h
  have := congrArg List.length h
  simp at this

/-- A subtree without comment-text and datetime element, traversed while no anchor is set,
    leaves the anchor, the exit flag, the buffer and the text as they were. -/
theorem parseCommentF_plain (render : Node → String) :
    (∀ (n : Node) (p : Path) (s : CommentWalk),
      (∀ x ∈ n.preorder, isClassed "comment-text" x = false ∧ isClassed "datetime" x = false) →
      s.nAnchor = none → s.exit = false →
      (parseCommentF render n p s).nAnchor = none ∧ (parseCommentF render n p s).exit = false ∧
      (parseCommentF render n p s).bufInnerHtml = s.bufInnerHtml ∧
      (parseCommentF render n p s).comment.Text = s.comment.Text) ∧
    (∀ (cs : List Node) (p : Path) (i : Nat) (s : CommentWalk),
      (∀ x ∈ preorderList cs,
        isClassed "comment-text" x = false ∧ isClassed "datetime" x = false) →
      s.nAnchor = none → s.exit = false →
      (parseCommentLoop render cs p i s).nAnchor = none ∧
      (parseCommentLoop render cs p i s).exit = false ∧
      (parseCommentLoop render cs p i s).bufInnerHtml = s.bufInnerHtml ∧
      (parseCommentLoop render cs p i s).comment.Text = s.comment.Text) := by
  apply Node.induction
  · intro t d a cs ih p s h ha he
    rw [preorder_mk] at h
    obtain ⟨hct, hdt⟩ := h _ (List.mem_cons_self _ _)
    have e1 : (parseCommentEnter render p (Node.mk t d a cs) s).nAnchor = none := by
      rw [parseCommentEnter_nAnchor, hct, ha]; rfl
    have e2 : (parseCommentEnter render p (Node.mk t d a cs) s).exit = false := by
      rw [parseCommentEnter_exit, hdt, he]; rfl
    have e3 : (parseCommentEnter render p (Node.mk t d a cs) s).bufInnerHtml
        = s.bufInnerHtml := by
      rw [parseCommentEnter_buf, hct, ha]; rfl
    have e4 := parseCommentEnter_text render p (Node.mk t d a cs) s
    obtain ⟨l1, l2, l3, l4⟩ := ih p 0 _ (fun x hx => h x (List.mem_cons_of_mem _ hx)) e1 e2
    rw [parseCommentF_mk, parseCommentLeave_of_ne _ _ (by rw [l1]; exact Option.noConfusion)]
    exact ⟨l1, l2, l3.trans e3, l4.trans e4⟩
  · intro p i s _ ha he
    rw [parseCommentLoop_nil]
    exact ⟨ha, he, rfl, rfl⟩
  · intro c rest ihc ihr p i s h ha he
    rw [preorderList_cons] at h
    have he2 : ¬ s.exit = true := by rw [he]; exact Bool.false_ne_true
    rw [parseCommentLoop_cons, if_neg he2]
    obtain ⟨c1, c2, c3, c4⟩ :=
      ihc (p ++ [i]) s (fun x hx => h x (List.mem_append_left _ hx)) ha he
    obtain ⟨r1, r2, r3, r4⟩ :=
      ihr p (i + 1) _ (fun x hx => h x (List.mem_append_right _ hx)) c1 c2
    exact ⟨r1, r2, r3.trans c3, r4.trans c4⟩

/-- Childless children traversed below the anchor at `p`: each is written once into the
    buffer; anchor, exit flag and text stay as they were. -/
theorem parseCommentLoop_leaves (render : Node → String) (p : Path) (tail : List Node)
    (pre : List Node) :
    ∀ (i : Nat) (s : CommentWalk),
      (∀ x ∈ pre, x.children = [] ∧ isClassed "comment-text" x = false ∧
        isClassed "datetime" x = false) →
      s.nAnchor = some p → s.exit = false →
      ∃ s2 : CommentWalk,
        parseCommentLoop render (pre ++ tail) p i s =
          parseCommentLoop render tail p (i + pre.length) s2 ∧
        s2.nAnchor = some p ∧ s2.exit = false ∧
        s2.bufInnerHtml = s.bufInnerHtml ++ renderAll render pre ∧
        s2.comment.Text = s.comment.Text := by
  induction pre with
  | nil =>
    intro i s _ ha he
    exact ⟨s, rfl, ha, he, by rw [renderAll, String.append_empty], rfl⟩
  | cons x xs ih =>
    intro i s h ha he
    obtain ⟨hx0, hct, hdt⟩ := h x (List.mem_cons_self _ _)
    have he2 : ¬ s.exit = true := by rw [he]; exact Bool.false_ne_true
    cases x with
    | mk t d a cs =>
      have hcs : cs = [] := hx0
      subst hcs
      have e1 : (parseCommentEnter render (p ++ [i]) (Node.mk t d a []) s).nAnchor
          = some p := by
        rw [parseCommentEnter_nAnchor, hct, ha]; rfl
      have e2 : (parseCommentEnter render (p ++ [i]) (Node.mk t d a []) s).exit = false := by
        rw [parseCommentEnter_exit, hdt, he]; rfl
      have e3 : (parseCommentEnter render (p ++ [i]) (Node.mk t d a []) s).bufInnerHtml
          = s.bufInnerHtml ++ render (Node.mk t d a []) := by
        rw [parseCommentEnter_buf, hct, ha]
        simp [path_child_ne_self]
      have e4 := parseCommentEnter_text render (p ++ [i]) (Node.mk t d a []) s
      have hF : parseCommentF render (Node.mk t d a []) (p ++ [i]) s =
          parseCommentEnter render (p ++ [i]) (Node.mk t d a []) s := by
        rw [parseCommentF_mk, parseCommentLoop_nil, parseCommentLeave_of_ne]
        rw [e1]
        intro hc
        exact path_child_ne_self p i (Option.some.inj hc).symm
      obtain ⟨s2, q1, q2, q3, q4, q5⟩ :=
        ih (i + 1) (parseCommentEnter render (p ++ [i]) (Node.mk t d a []) s)
          (fun y hy => h y (List.mem_cons_of_mem _ hy)) e1 e2
      refine ⟨s2, ?_, q2, q3, ?_, q5.trans e4⟩
      · rw [List.cons_append, parseCommentLoop_cons, if_neg he2, hF, q1, List.length_cons]
        congr 1
        omega
      · rw [q4, e3, renderAll, String.append_assoc]

/-- The traversal of an anchor whose children are childless nodes followed by a datetime
    element: the text is the buffer so far, the serializations of the children before the
    datetime element and the serialization of the datetime element itself. -/
theorem parseCommentF_anchor_datetime (render : Node → String) (anchor dt : Node)
    (pre post : List Node) (p : Path) (s : CommentWalk)
    (hA : isClassed "comment-text" anchor = true) (hAd : isClassed "datetime" anchor = false)
    (hch : anchor.children = pre ++ dt :: post)
    (hpre : ∀ x ∈ pre, x.children = [] ∧ isClassed "comment-text" x = false ∧
      isClassed "datetime" x = false)
    (hD : isClassed "datetime" dt = true) (hDc : isClassed "comment-text" dt = false)
    (he : s.exit = false) :
    (parseCommentF render anchor p s).comment.Text =
        s.bufInnerHtml ++ renderAll render pre ++ render dt ∧
    (parseCommentF render anchor p s).exit = true ∧
    (parseCommentF render anchor p s).nAnchor = none := by
  cases anchor with
  | mk t d a cs =>
    have hcs : cs = pre ++ dt :: post := hch
    subst hcs
    have e1 : (parseCommentEnter render p (Node.mk t d a (pre ++ dt :: post)) s).nAnchor
        = some p := by
      rw [parseCommentEnter_nAnchor, if_pos hA]
    have e2 : (parseCommentEnter render p (Node.mk t d a (pre ++ dt :: post)) s).exit
        = false := by
      rw [parseCommentEnter_exit, hAd, he]; rfl
    have e3 : (parseCommentEnter render p (Node.mk t d a (pre ++ dt :: post)) s).bufInnerHtml
        = s.bufInnerHtml := by
      rw [parseCommentEnter_buf, if_pos hA]
      simp
    obtain ⟨s2, q1, q2, q3, q4, _⟩ :=
      parseCommentLoop_leaves render p (dt :: post) pre 0 _ hpre e1 e2
    have he3 : ¬ s2.exit = true := by rw [q3]; exact Bool.false_ne_true
    have d1 : (parseCommentEnter render (p ++ [0 + pre.length]) dt s2).nAnchor = some p := by
      rw [parseCommentEnter_nAnchor, hDc, q2]; rfl
    have d2 : (parseCommentEnter render (p ++ [0 + pre.length]) dt s2).exit = true := by
      rw [parseCommentEnter_exit, hD, q3]; rfl
    have d3 : (parseCommentEnter render (p ++ [0 + pre.length]) dt s2).bufInnerHtml
        = s2.bufInnerHtml ++ render dt := by
      rw [parseCommentEnter_buf, hDc, q2]
      simp [path_child_ne_self]
    have hF : parseCommentF render dt (p ++ [0 + pre.length]) s2 =
        parseCommentEnter render (p ++ [0 + pre.length]) dt s2 := by
      cases dt with
      | mk t2 d2 a2 cs2 =>
        rw [parseCommentF_mk, parseCommentLoop_exit render _ _ _ _ d2, parseCommentLeave_of_ne]
        rw [d1]
        intro hc
        exact path_child_ne_self p _ (Option.some.inj hc).symm
    have hloop : parseCommentLoop render (pre ++ dt :: post) p 0
        (parseCommentEnter render p (Node.mk t d a (pre ++ dt :: post)) s) =
        parseCommentEnter render (p ++ [0 + pre.length]) dt s2 := by
      rw [q1, parseCommentLoop_cons, if_neg he3, hF, parseCommentLoop_exit render _ _ _ _ d2]
    rw [parseCommentF_mk, hloop, parseCommentLeave, if_pos d1]
    refine ⟨?_, d2, rfl⟩
    show (parseCommentEnter render (p ++ [0 + pre.length]) dt s2).bufInnerHtml = _
    rw [d3, q4, e3]

/-- The traversal reaches the node `anchor` once the nodes listed before it in pre-order,
    none classed comment-text or datetime, are done: what the traversal of `anchor` fixes
    as text, with the exit flag set and the anchor cleared, is the result of the whole
    traversal. -/
theorem parseCommentF_reach (render : Node → String) (anchor : Node) (txt : String)
    (hanchor : ∀ (p : Path) (s : CommentWalk),
      s.nAnchor = none → s.exit = false → s.bufInnerHtml = "" →
      (parseCommentF render anchor p s).comment.Text = txt ∧
      (parseCommentF render anchor p s).exit = true ∧
      (parseCommentF render anchor p s).nAnchor = none) :
    (∀ (n : Node) (p : Path) (s : CommentWalk) (before rest : List Node),
      n.preorder = before ++ anchor :: rest →
      (∀ x ∈ before, isClassed "comment-text" x = false ∧ isClassed "datetime" x = false) →
      s.nAnchor = none → s.exit = false → s.bufInnerHtml = "" →
      (parseCommentF render n p s).comment.Text = txt ∧
      (parseCommentF render n p s).exit = true ∧
      (parseCommentF render n p s).nAnchor = none) ∧
    (∀ (cs : List Node) (p : Path) (i : Nat) (s : CommentWalk) (before rest : List Node),
      preorderList cs = before ++ anchor :: rest →
      (∀ x ∈ before, isClassed "comment-text" x = false ∧ isClassed "datetime" x = false) →
      s.nAnchor = none → s.exit = false → s.bufInnerHtml = "" →
      (parseCommentLoop render cs p i s).comment.Text = txt ∧
      (parseCommentLoop render cs p i s).exit = true ∧
      (parseCommentLoop render cs p i s).nAnchor = none) := by
  apply Node.induction
  · intro t d a cs ih p s before rest hsplit hclean ha he hb
    rw [preorder_mk] at hsplit
    cases before with
    | nil =>
      rw [List.nil_append] at hsplit
      rw [(List.cons.inj hsplit).1]
      exact hanchor p s ha he hb
    | cons b before2 =>
      rw [List.cons_append] at hsplit
      obtain ⟨hb1, hb2⟩ := List.cons.inj hsplit
      obtain ⟨hct, hdt⟩ := hclean b (List.mem_cons_self _ _)
      rw [← hb1] at hct hdt
      have e1 : (parseCommentEnter render p (Node.mk t d a cs) s).nAnchor = none := by
        rw [parseCommentEnter_nAnchor, hct, ha]; rfl
      have e2 : (parseCommentEnter render p (Node.mk t d a cs) s).exit = false := by
        rw [parseCommentEnter_exit, hdt, he]; rfl
      have e3 : (parseCommentEnter render p (Node.mk t d a cs) s).bufInnerHtml = "" := by
        rw [parseCommentEnter_buf, hct, ha]; exact hb
      obtain ⟨l1, l2, l3⟩ := ih p 0 _ before2 rest hb2
        (fun x hx => hclean x (List.mem_cons_of_mem _ hx)) e1 e2 e3
      rw [parseCommentF_mk, parseCommentLeave_of_ne _ _ (by rw [l3]; exact Option.noConfusion)]
      exact ⟨l1, l2, l3⟩
  · intro p i s before rest hsplit
    rw [preorderList_nil] at hsplit
    cases before <;> cases hsplit
  · intro c tl ihc ihr p i s before rest hsplit hclean ha he hb
    rw [preorderList_cons] at hsplit
    have he2 : ¬ s.exit = true := by rw [he]; exact Bool.false_ne_true
    rw [parseCommentLoop_cons, if_neg he2]
    rcases List.append_eq_append_iff.1 hsplit with ⟨m, hm1, hm2⟩ | ⟨m, hm1, hm2⟩
    · -- the subtree of `c` lies entirely before the anchor
      obtain ⟨c1, c2, c3, _⟩ := (parseCommentF_plain render).1 c (p ++ [i]) s
        (fun x hx => hclean x (by rw [hm1]; exact List.mem_append_left _ hx)) ha he
      exact ihr p (i + 1) _ m rest hm2
        (fun x hx => hclean x (by rw [hm1]; exact List.mem_append_right _ hx)) c1 c2
        (c3.trans hb)
    · cases m with
      | nil =>
        rw [List.append_nil] at hm1
        rw [List.nil_append] at hm2
        obtain ⟨c1, c2, c3, _⟩ := (parseCommentF_plain render).1 c (p ++ [i]) s
          (fun x hx => hclean x (by rw [← hm1]; exact hx)) ha he
        exact ihr p (i + 1) _ [] rest hm2.symm (fun x hx => by cases hx) c1 c2 (c3.trans hb)
      | cons m0 m2 =>
        rw [List.cons_append] at hm2
        obtain ⟨hm0, _⟩ := List.cons.inj hm2
        rw [← hm0] at hm1
        obtain ⟨l1, l2, l3⟩ := ihc (p ++ [i]) s before m2 hm1 hclean ha he hb
        rw [parseCommentLoop_exit render _ _ _ _ l2]
        exact ⟨l1, l2, l3⟩

/-- Claim C3, as stated, fails: for the body `Hi<span class="datetime">now</span>tail` the text
    holds the serialization of the datetime element after `Hi`; it is not `Hi`. -/
theorem C3_counterexample_datetime_in_text :
    (parseComment renderNode stampedRecord).Text = "Hi<span class=\"datetime\">now</span>" ∧
    renderNode nowStamp = "<span class=\"datetime\">now</span>" ∧
    (parseComment renderNode stampedRecord).Text ≠ "Hi" :=
  ⟨by decide, by decide, by decide⟩

/-- Claim C3, amended: let `anchor` be an element classed comment-text, not classed datetime,
    reached by `parseComment` before any other comment-text or datetime element, and let a
    datetime element `dt` (not classed comment-text) be a direct child of it, the children
    before `dt` being childless and not classed comment-text or datetime. Then the text is
    the serializations of the children before `dt` followed by the serialization of `dt`
    itself: the datetime element ends the body and is part of it; the children after it are
    not written. -/
theorem C3_datetime_ends_body (render : Node → String) (r anchor dt : Node)
    (before rest pre post : List Node)
    (hpos : r.preorder = before ++ anchor :: rest)
    (hbefore : ∀ x ∈ before,
      isClassed "comment-text" x = false ∧ isClassed "datetime" x = false)
    (hA : isClassed "comment-text" anchor = true) (hAd : isClassed "datetime" anchor = false)
    (hch : anchor.children = pre ++ dt :: post)
    (hpre : ∀ x ∈ pre, x.children = [] ∧ isClassed "comment-text" x = false ∧
      isClassed "datetime" x = false)
    (hD : isClassed "datetime" dt = true) (hDc : isClassed "comment-text" dt = false) :
    (parseComment render r).Text = renderAll render pre ++ render dt := by
  have hanchor : ∀ (p : Path) (s : CommentWalk),
      s.nAnchor = none → s.exit = false → s.bufInnerHtml = "" →
      (parseCommentF render anchor p s).comment.Text = renderAll render pre ++ render dt ∧
      (parseCommentF render anchor p s).exit = true ∧
      (parseCommentF render anchor p s).nAnchor = none := by
    intro p s _ he hb
    obtain ⟨h1, h2, h3⟩ :=
      parseCommentF_anchor_datetime render anchor dt pre post p s hA hAd hch hpre hD hDc he
    rw [hb, String.empty_append] at h1
    exact ⟨h1, h2, h3⟩
  exact ((parseCommentF_reach render anchor _ hanchor).1 r [] {} before rest hpos hbefore
    rfl rfl rfl).1

/-- Claim C3, amended, applied to `stampedRecord`. -/
theorem C3_datetime_ends_body_witness :
    (parseComment renderNode stampedRecord).Text =
      renderAll renderNode [textNode "Hi"] ++ renderNode nowStamp :=
  C3_datetime_ends_body renderNode stampedRecord stampedAnchor nowStamp
    (stampedRecord.preorder.take 3) (stampedRecord.preorder.drop 4)
    [textNode "Hi"] [textNode "tail"] (by rfl) (by decide) (by decide) (by decide) (by rfl)
    (by simp [textNode, Node.children]; decide) (by decide) (by decide)

/-! ### The comment-list scan -/

theorem parseCommentItems_eq (render : Node → String) (cls : List Node) :
    ∀ comments : List Comment,
      parseCommentItems render cls comments =
        comments ++ (cls.filter (isClassed "comment-item")).map (parseComment render) := by
  induction cls with
  | nil => intro comments; simp [parseCommentItems]
  | cons cl rest ih =>
    intro comments
    rw [parseCommentItems, ih]
    by_cases h : isClassed "comment-item" cl = true
    · simp [h, List.filter_cons]
    · simp [h, List.filter_cons]

/-- The traversal of `parseCommentList` appends, for every comment-list element of the
    subtree in pre-order, the records of its direct comment-item children. -/
theorem parseCommentListF_eq (render : Node → String) :
    (∀ (n : Node) (comments : List Comment),
      parseCommentListF render n comments =
        comments ++ (n.preorder.filter (isClassed "comment-list")).flatMap
          (commentItemsOf render)) ∧
    (∀ (cs : List Node) (comments : List Comment),
      parseCommentListLoop render cs comments =
        comments ++ ((preorderList cs).filter (isClassed "comment-list")).flatMap
          (commentItemsOf render)) := by
  apply Node.induction
  · intro t d a cs ih comments
    rw [parseCommentListF_mk, ih, preorder_mk]
    by_cases h : isClassed "comment-list" (Node.mk t d a cs) = true
    · rw [if_pos h, parseCommentItems_eq, List.filter_cons_of_pos h, List.flatMap_cons,
        List.append_assoc]
      rfl
    · rw [if_neg h, List.filter_cons_of_neg h]
  · intro comments
    rw [parseCommentListLoop_nil, preorderList_nil]
    simp
  · intro c rest ihc ihr comments
    rw [parseCommentListLoop_cons, ihr, ihc, preorderList_cons, List.filter_append,
      List.flatMap_append, List.append_assoc]

/-- Claim C8: the comments set by `parseCommentList` are the concatenation, over all elements
    classed `comment-list` of the whole document in pre-order, of the records of the direct
    children classed `comment-item` of that element, in sibling order; they are empty when
    the document has no comment-list element. -/
theorem C8_comment_lists_flattened (render : Node → String) (doc : Node) (topic : Topic) :
    (parseCommentList render doc topic).Comments =
        (doc.preorder.filter (isClassed "comment-list")).flatMap
          (fun l => (l.children.filter (isClassed "comment-item")).map (parseComment render)) ∧
    (doc.preorder.filter (isClassed "comment-list") = [] →
      (parseCommentList render doc topic).Comments = []) := by
  have h : (parseCommentList render doc topic).Comments =
      (doc.preorder.filter (isClassed "comment-list")).flatMap (commentItemsOf render) := by
    show parseCommentListF render doc [] = _
    rw [(parseCommentListF_eq render).1]
    rfl
  refine ⟨h, fun h0 => ?_⟩
  rw [h, h0]
  rfl

/-- Claim C8, applied: two comment-lists side by side give their items in one flat sequence, and
    a document without comment-list gives none, whatever the topic held before. -/
theorem C8_comment_lists_flattened_witness :
    (parseCommentList renderNode twoListsDoc {}).Comments =
      [{ Username := "ann", Datetime := "d1" }, { Username := "bob", Datetime := "d2" },
       { Username := "cid", Datetime := "d3" }] ∧
    (parseCommentList renderNode plainDoc { Comments := [{ Username := "old" }] }).Comments
      = [] :=
  ⟨(C8_comment_lists_flattened renderNode twoListsDoc {}).1.trans (by decide),
   (C8_comment_lists_flattened renderNode plainDoc { Comments := [{ Username := "old" }] }).2
     (by rfl)⟩

/-- Claim C5: when the document has exactly one element `l` classed `comment-list`, the comments
    are exactly the records of the direct children of `l` classed `comment-item`, in
    sibling order, one per such child; no other element contributes. -/
theorem C5_single_comment_list (render : Node → String) (doc l : Node) (topic : Topic)
    (h : doc.preorder.filter (isClassed "comment-list") = [l]) :
    (parseCommentList render doc topic).Comments =
        (l.children.filter (isClassed "comment-item")).map (parseComment render) ∧
    (parseCommentList render doc topic).Comments.length =
        (l.children.filter (isClassed "comment-item")).length := by
  have h1 : (parseCommentList render doc topic).Comments =
      (l.children.filter (isClassed "comment-item")).map (parseComment render) := by
    show parseCommentListF render doc [] = _
    rw [(parseCommentListF_eq render).1, h]
    simp [commentItemsOf]
  exact ⟨h1, by rw [h1, List.length_map]⟩

/-- Claim C5, applied: a comment-list with two comment-item children, other children, a deeper
    comment-item and a comment-item outside the list gives exactly the two records, in
    source order. -/
theorem C5_single_comment_list_witness :
    twoItemsDoc.preorder.filter (isClassed "comment-list") = [twoItemsList] ∧
    (parseCommentList renderNode twoItemsDoc {}).Comments =
      [{ Username := "ann", Datetime := "d1" }, { Username := "bob", Datetime := "d2" }] ∧
    (parseCommentList renderNode twoItemsDoc {}).Comments.length = 2 :=
  ⟨by rfl,
   (C5_single_comment_list renderNode twoItemsDoc twoItemsList {} (by rfl)).1.trans (by decide),
   (C5_single_comment_list renderNode twoItemsDoc twoItemsList {} (by rfl)).2.trans (by decide)⟩

/-! ### Positions and document order -/

theorem extractedItemsF_mk (t : NodeType) (d : String) (a : List Attribute) (cs : List Node)
    (p : Path) :
    extractedItemsF (Node.mk t d a cs) p =
      (if isClassed "comment-list" (Node.mk t d a cs) = true then commentItemsAt cs p 0 else [])
        ++ extractedItemsLoop cs p 0 := by
  rw [extractedItemsF]

theorem extractedItemsLoop_nil (p : Path) (i : Nat) : extractedItemsLoop [] p i = [] := by
  rw [extractedItemsLoop]

theorem extractedItemsLoop_cons (c : Node) (rest : List Node) (p : Path) (i : Nat) :
    extractedItemsLoop (c :: rest) p i =
      extractedItemsF c (p ++ [i]) ++ extractedItemsLoop rest p (i + 1) := by
  rw [extractedItemsLoop]

theorem preorderAt_mk (t : NodeType) (d : String) (a : List Attribute) (cs : List Node)
    (p : Path) :
    preorderAt (Node.mk t d a cs) p = (p, Node.mk t d a cs) :: preorderAtList cs p 0 := by
  rw [preorderAt]

theorem preorderAtList_nil (p : Path) (i : Nat) : preorderAtList [] p i = [] := by
  rw [preorderAtList]

theorem preorderAtList_cons (c : Node) (rest : List Node) (p : Path) (i : Nat) :
    preorderAtList (c :: rest) p i =
      preorderAt c (p ++ [i]) ++ preorderAtList rest p (i + 1) := by
  rw [preorderAtList]

/-- The positioned pre-order lists the same nodes as the plain pre-order. -/
theorem preorderAt_map_snd :
    (∀ (n : Node) (p : Path), (preorderAt n p).map Prod.snd = n.preorder) ∧
    (∀ (cs : List Node) (p : Path) (i : Nat),
      (preorderAtList cs p i).map Prod.snd = preorderList cs) := by
  apply Node.induction
  · intro t d a cs ih p
    rw [preorderAt_mk, preorder_mk, List.map_cons, ih]
  · intro p i
    rw [preorderAtList_nil, preorderList_nil]
    rfl
  · intro c rest ihc ihr p i
    rw [preorderAtList_cons, preorderList_cons, List.map_append, ihc, ihr]

/-- Every position listed below the node at `p` extends `p`. -/
theorem preorderAt_extends :
    (∀ (n : Node) (p : Path), ∀ x ∈ preorderAt n p, p <+: x.1) ∧
    (∀ (cs : List Node) (p : Path) (i : Nat), ∀ x ∈ preorderAtList cs p i,
      ∃ j, i ≤ j ∧ (p ++ [j]) <+: x.1) := by
  apply Node.induction
  · intro t d a cs ih p x hx
    rw [preorderAt_mk] at hx
    rcases List.mem_cons.1 hx with rfl | hx
    · exact List.prefix_refl _
    · obtain ⟨j, _, hj⟩ := ih p 0 x hx
      exact (List.prefix_append p [j]).trans hj
  · intro p i x hx
    rw [preorderAtList_nil] at hx
    cases hx
  · intro c rest ihc ihr p i x hx
    rw [preorderAtList_cons] at hx
    rcases List.mem_append.1 hx with hx | hx
    · exact ⟨i, le_refl _, ihc _ x hx⟩
    · obtain ⟨j, hij, hj⟩ := ihr p (i + 1) x hx
      exact ⟨j, by omega, hj⟩

theorem path_child_ne {p : Path} {i j : Nat} {q : Path} (hij : i ≠ j)
    (h1 : (p ++ [i]) <+: q) (h2 : (p ++ [j]) <+: q) : False := by
  obtain ⟨r1, rfl⟩ := h1
  obtain ⟨r2, h2⟩ := h2
  rw [List.append_assoc, List.append_assoc] at h2
  have := List.append_cancel_left h2
  simp at this
  exact hij this.1.symm

/-- No position occurs twice in the positioned pre-order. -/
theorem preorderAt_nodup :
    (∀ (n : Node) (p : Path), ((preorderAt n p).map Prod.fst).Nodup) ∧
    (∀ (cs : List Node) (p : Path) (i : Nat), ((preorderAtList cs p i).map Prod.fst).Nodup) := by
  apply Node.induction
  · intro t d a cs ih p
    rw [preorderAt_mk, List.map_cons, List.nodup_cons]
    refine ⟨?_, ih p 0⟩
    intro hmem
    obtain ⟨x, hx, hxp⟩ := List.mem_map.1 hmem
    obtain ⟨j, _, hj⟩ := preorderAt_extends.2 cs p 0 x hx
    have hlen := hj.length_le
    rw [hxp] at hlen
    simp at hlen
  · intro p i
    rw [preorderAtList_nil]
    exact List.nodup_nil
  · intro c rest ihc ihr p i
    rw [preorderAtList_cons, List.map_append, List.nodup_append]
    refine ⟨ihc _, ihr _ _, ?_⟩
    intro q hq1 hq2
    obtain ⟨x, hx, rfl⟩ := List.mem_map.1 hq1
    obtain ⟨y, hy, hxy⟩ := List.mem_map.1 hq2
    have h1 := preorderAt_extends.1 c (p ++ [i]) x hx
    obtain ⟨j, hij, h2⟩ := preorderAt_extends.2 rest p (i + 1) y hy
    rw [hxy] at h2
    exact path_child_ne (by omega) h1 h2

theorem head_sublist_preorderAt (c : Node) (q : Path) : List.Sublist [(q, c)] (preorderAt c q) := by
  cases c with
  | mk t d a cs =>
    rw [preorderAt_mk]
    exact List.Sublist.cons₂ _ (List.nil_sublist _)

theorem commentItemsAt_sublist (cs : List Node) (p : Path) :
    ∀ i : Nat, List.Sublist (commentItemsAt cs p i) (preorderAtList cs p i) := by
  induction cs with
  | nil => intro i; rw [commentItemsAt]; exact List.nil_sublist _
  | cons c rest ih =>
    intro i
    rw [commentItemsAt, preorderAtList_cons]
    refine List.Sublist.append ?_ (ih (i + 1))
    by_cases h : isClassed "comment-item" c = true
    · rw [if_pos h]
      exact head_sublist_preorderAt c (p ++ [i])
    · rw [if_neg h]
      exact List.nil_sublist _

/-- A subtree without comment-list element yields no extracted item. -/
theorem extractedItems_nil :
    (∀ (n : Node) (p : Path),
      (∀ x ∈ n.preorder, isClassed "comment-list" x = false) → extractedItemsF n p = []) ∧
    (∀ (cs : List Node) (p : Path) (i : Nat),
      (∀ x ∈ preorderList cs, isClassed "comment-list" x = false) →
        extractedItemsLoop cs p i = []) := by
  apply Node.induction
  · intro t d a cs ih p h
    rw [preorder_mk] at h
    have h0 : ¬ isClassed "comment-list" (Node.mk t d a cs) = true := by
      rw [h _ (List.mem_cons_self _ _)]
      exact Bool.false_ne_true
    rw [extractedItemsF_mk, if_neg h0, ih p 0 (fun x hx => h x (List.mem_cons_of_mem _ hx))]
    rfl
  · intro p i _
    exact extractedItemsLoop_nil p i
  · intro c rest ihc ihr p i h
    rw [preorderList_cons] at h
    rw [extractedItemsLoop_cons, ihc _ (fun x hx => h x (List.mem_append_left _ hx)),
      ihr _ _ (fun x hx => h x (List.mem_append_right _ hx))]
    rfl

/-- Without a comment-list below another comment-list, extraction follows the pre-order. -/
theorem extractedItems_sublist :
    (∀ (n : Node) (p : Path),
      (∀ l ∈ n.preorder, isClassed "comment-list" l = true →
        ∀ x ∈ preorderList l.children, isClassed "comment-list" x = false) →
      List.Sublist (extractedItemsF n p) (preorderAt n p)) ∧
    (∀ (cs : List Node) (p : Path) (i : Nat),
      (∀ l ∈ preorderList cs, isClassed "comment-list" l = true →
        ∀ x ∈ preorderList l.children, isClassed "comment-list" x = false) →
      List.Sublist (extractedItemsLoop cs p i) (preorderAtList cs p i)) := by
  apply Node.induction
  · intro t d a cs ih p h
    rw [preorder_mk] at h
    rw [extractedItemsF_mk, preorderAt_mk]
    apply List.Sublist.cons
    by_cases h0 : isClassed "comment-list" (Node.mk t d a cs) = true
    · rw [if_pos h0, extractedItems_nil.2 cs p 0 (h _ (List.mem_cons_self _ _) h0),
        List.append_nil]
      exact commentItemsAt_sublist cs p 0
    · rw [if_neg h0, List.nil_append]
      exact ih p 0 (fun l hl => h l (List.mem_cons_of_mem _ hl))
  · intro p i _
    rw [extractedItemsLoop_nil]
    exact List.nil_sublist _
  · intro c rest ihc ihr p i h
    rw [preorderList_cons] at h
    rw [extractedItemsLoop_cons, preorderAtList_cons]
    exact List.Sublist.append (ihc _ (fun l hl => h l (List.mem_append_left _ hl)))
      (ihr _ _ (fun l hl => h l (List.mem_append_right _ hl)))

theorem parseCommentItems_eq_at (render : Node → String) (cls : List Node) (p : Path) :
    ∀ (i : Nat) (comments : List Comment),
      parseCommentItems render cls comments =
        comments ++ (commentItemsAt cls p i).map (fun x => parseComment render x.2) := by
  induction cls with
  | nil => intro i comments; simp [parseCommentItems, commentItemsAt]
  | cons cl rest ih =>
    intro i comments
    rw [parseCommentItems, ih (i + 1), commentItemsAt]
    by_cases h : isClassed "comment-item" cl = true
    · simp [h]
    · simp [h]

/-- The comments of `parseCommentList` are the records of the recorded items, in the
    recorded order. -/
theorem parseCommentListF_eq_extracted (render : Node → String) :
    (∀ (n : Node) (p : Path) (comments : List Comment),
      parseCommentListF render n comments =
        comments ++ (extractedItemsF n p).map (fun x => parseComment render x.2)) ∧
    (∀ (cs : List Node) (p : Path) (i : Nat) (comments : List Comment),
      parseCommentListLoop render cs comments =
        comments ++ (extractedItemsLoop cs p i).map (fun x => parseComment render x.2)) := by
  apply Node.induction
  · intro t d a cs ih p comments
    rw [parseCommentListF_mk, ih p 0, extractedItemsF_mk]
    by_cases h : isClassed "comment-list" (Node.mk t d a cs) = true
    · rw [if_pos h, if_pos h, parseCommentItems_eq_at render cs p 0, List.map_append,
        List.append_assoc]
    · rw [if_neg h, if_neg h, List.nil_append]
  · intro p i comments
    rw [parseCommentListLoop_nil, extractedItemsLoop_nil]
    simp
  · intro c rest ihc ihr p i comments
    rw [parseCommentListLoop_cons, ihr p (i + 1), ihc (p ++ [i]), extractedItemsLoop_cons,
      List.map_append, List.append_assoc]

/-- Claim C6, as stated, fails: in `nestedListDoc` the item of the inner comment-list is at
    position `[0,1,0,0,2,0]`, before the second item of the outer list at `[0,1,0,1]` in
    pre-order, yet its record comes last in the comments. -/
theorem C6_counterexample_nested_list_order :
    (parseCommentList renderNode nestedListDoc {}).Comments =
      (extractedItemsF nestedListDoc []).map (fun x => parseComment renderNode x.2) ∧
    (extractedItemsF nestedListDoc []).map Prod.fst =
      [[0, 1, 0, 0], [0, 1, 0, 1], [0, 1, 0, 0, 2, 0]] ∧
    ¬ List.Sublist ((extractedItemsF nestedListDoc []).map Prod.fst)
        ((preorderAt nestedListDoc []).map Prod.fst) :=
  ⟨by decide, by decide, by decide⟩

/-- Claim C6, amended: in a document where no comment-list element lies below another
    comment-list element, the comments are the records of the extracted items and these
    items appear in the comments in the order of their positions in the pre-order of the
    document (each position occurring once there). -/
theorem C6_comments_in_document_order (render : Node → String) (doc : Node) (topic : Topic)
    (h : ∀ l ∈ doc.preorder, isClassed "comment-list" l = true →
      ∀ x ∈ preorderList l.children, isClassed "comment-list" x = false) :
    (parseCommentList render doc topic).Comments =
      (extractedItemsF doc []).map (fun x => parseComment render x.2) ∧
    List.Sublist (extractedItemsF doc []) (preorderAt doc []) ∧
    ((preorderAt doc []).map Prod.fst).Nodup ∧
    (preorderAt doc []).map Prod.snd = doc.preorder := by
  refine ⟨?_, extractedItems_sublist.1 doc [] h, preorderAt_nodup.1 doc [],
    preorderAt_map_snd.1 doc []⟩
  show parseCommentListF render doc [] = _
  rw [(parseCommentListF_eq_extracted render).1 doc []]
  rfl

/-- Claim C6, amended, applied to two comment-lists side by side. -/
theorem C6_comments_in_document_order_witness :
    (extractedItemsF twoListsDoc []).map Prod.fst =
      [[0, 1, 0, 0], [0, 1, 1, 0], [0, 1, 1, 1]] ∧
    List.Sublist (extractedItemsF twoListsDoc []) (preorderAt twoListsDoc []) :=
  ⟨by decide, (C6_comments_in_document_order renderNode twoListsDoc {} (by decide)).2.1⟩

theorem mem_preorder_of_descendant :
    (∀ (n : Node), ∀ x ∈ n.preorder, ∀ y ∈ preorderList x.children, y ∈ n.preorder) ∧
    (∀ (cs : List Node), ∀ x ∈ preorderList cs, ∀ y ∈ preorderList x.children,
      y ∈ preorderList cs) := by
  apply Node.induction
  · intro t d a cs ih x hx y hy
    rw [preorder_mk] at hx ⊢
    rcases List.mem_cons.1 hx with rfl | hx
    · exact List.mem_cons_of_mem _ hy
    · exact List.mem_cons_of_mem _ (ih x hx y hy)
  · intro x hx
    rw [preorderList_nil] at hx
    cases hx
  · intro c rest ihc ihr x hx y hy
    rw [preorderList_cons] at hx ⊢
    rcases List.mem_append.1 hx with hx | hx
    · exact List.mem_append_left _ (ihc x hx y hy)
    · exact List.mem_append_right _ (ihr x hx y hy)

/-! ### Nested comment-lists -/

/-- Claim C7, as stated, fails: in `nestedListDoc` the comment-item `bob` of the inner
    comment-list is extracted as well, after the two direct items of the outer one. -/
theorem C7_counterexample_inner_list_extracted :
    nestedListDoc.preorder.filter (isClassed "comment-list") =
      [nestedOuterList, nestedInnerList] ∧
    commentItemsOf renderNode nestedOuterList =
      [{ Username := "ann", Datetime := "d1" }, { Username := "cid", Datetime := "d3" }] ∧
    (parseCommentList renderNode nestedListDoc {}).Comments =
      [{ Username := "ann", Datetime := "d1" }, { Username := "cid", Datetime := "d3" },
       { Username := "bob", Datetime := "d2" }] ∧
    (parseCommentList renderNode nestedListDoc {}).Comments ≠
      commentItemsOf renderNode nestedOuterList :=
  ⟨by rfl, by decide, by decide, by decide⟩

/-- Claim C7, amended: nested comment-lists are explored. When an element `inner` classed
    `comment-list` lies below an element `outer` classed `comment-list` of the document,
    every direct child of `inner` classed `comment-item` has its record in the comments;
    the scan of `outer` gives the records of its own direct comment-items followed by those
    of every comment-list element below it, in pre-order. -/
theorem C7_nested_comment_lists_explored (render : Node → String) (doc outer inner c : Node)
    (topic : Topic)
    (houter : outer ∈ doc.preorder) (hoc : isClassed "comment-list" outer = true)
    (hinner : inner ∈ preorderList outer.children)
    (hic : isClassed "comment-list" inner = true)
    (hc : c ∈ inner.children) (hcc : isClassed "comment-item" c = true) :
    parseComment render c ∈ (parseCommentList render doc topic).Comments ∧
    parseCommentListF render outer [] =
      commentItemsOf render outer ++
        ((preorderList outer.children).filter (isClassed "comment-list")).flatMap
          (commentItemsOf render) := by
  constructor
  · show parseComment render c ∈ parseCommentListF render doc []
    rw [(parseCommentListF_eq render).1, List.nil_append, List.mem_flatMap]
    refine ⟨inner, List.mem_filter.2 ⟨mem_preorder_of_descendant.1 doc outer houter inner hinner,
      hic⟩, ?_⟩
    exact List.mem_map.2 ⟨c, List.mem_filter.2 ⟨hc, hcc⟩, rfl⟩
  · rw [(parseCommentListF_eq render).1, List.nil_append]
    cases outer with
    | mk t d a cs =>
      rw [preorder_mk, List.filter_cons_of_pos hoc, List.flatMap_cons]
      rfl

/-- Claim C7, amended, applied to `nestedListDoc`: the record of `bob` is among the comments. -/
theorem C7_nested_comment_lists_explored_witness :
    ({ Username := "bob", Datetime := "d2" } : Comment) ∈
      (parseCommentList renderNode nestedListDoc {}).Comments :=
  (C7_nested_comment_lists_explored renderNode nestedListDoc nestedOuterList nestedInnerList
    (simpleItem "bob" "d2" []) {}
    (by simp [nestedListDoc, document, element, preorder_mk, preorderList_cons, nestedOuterList,
      classed])
    (by decide)
    (by simp [nestedOuterList, classed, element, Node.children, preorderList_cons, simpleItem,
      preorder_mk, nestedInnerList])
    (by decide)
    (by simp [nestedInnerList, classed, element, Node.children])
    (by decide)).1

/-! ### The question scan -/

theorem questionViewRun_exit (render : Node → String) (xs : List Node) (s : QuestionWalk)
    (h : s.exit = true) : questionViewRun render xs s = s := by
  cases xs with
  | nil => rfl
  | cons x xs => rw [questionViewRun, if_pos h]

theorem questionViewRun_append (render : Node → String) (xs ys : List Node) :
    ∀ s : QuestionWalk,
      questionViewRun render (xs ++ ys) s = questionViewRun render ys (questionViewRun render xs s) := by
  induction xs with
  | nil => intro s; rfl
  | cons x xs ih =>
    intro s
    by_cases h : s.exit = true
    · rw [List.cons_append, questionViewRun, if_pos h, questionViewRun, if_pos h,
        questionViewRun_exit render ys s h]
    · rw [List.cons_append, questionViewRun, if_neg h, questionViewRun, if_neg h, ih]

/-- The closure of `parseQuestionView` enters the nodes of the subtree in pre-order, until
    `exit` is set. -/
theorem parseQuestionViewF_eq_run (render : Node → String) :
    (∀ (n : Node) (s : QuestionWalk), s.exit = false →
      parseQuestionViewF render n s = questionViewRun render n.preorder s) ∧
    (∀ (cs : List Node) (s : QuestionWalk),
      parseQuestionViewLoop render cs s = questionViewRun render (preorderList cs) s) := by
  apply Node.induction
  · intro t d a cs ih s hs
    have hs2 : ¬ s.exit = true := by rw [hs]; exact Bool.false_ne_true
    rw [parseQuestionViewF_mk, ih, preorder_mk, questionViewRun, if_neg hs2]
  · intro s
    rw [parseQuestionViewLoop_nil, preorderList_nil]
    rfl
  · intro c rest ihc ihr s
    rw [parseQuestionViewLoop_cons, preorderList_cons, questionViewRun_append]
    by_cases h : s.exit = true
    · rw [if_pos h, questionViewRun_exit render _ s h, questionViewRun_exit render _ s h]
    · rw [if_neg h, ihr, ihc s (by simpa using h)]

/-- The record of the last question-view element of a list, or the given record. -/
theorem lastQuestion_concat (render : Node → String) (xs : List Node) (x : Node) (q : Comment) :
    (match ((xs ++ [x]).filter (isClassed "question-view")).getLast? with
      | some n => parseComment render n
      | none => q) =
    if isClassed "question-view" x = true then parseComment render x
    else
      match (xs.filter (isClassed "question-view")).getLast? with
      | some n => parseComment render n
      | none => q := by
  by_cases h : isClassed "question-view" x = true
  · rw [if_pos h, List.filter_append, List.filter_cons_of_pos h, List.filter_nil,
      List.getLast?_concat]
  · rw [if_neg h, List.filter_append, List.filter_cons_of_neg h, List.filter_nil,
      List.append_nil]

/-- A run over nodes none of which is classed `linked-questions`. -/
theorem questionViewRun_no_linked (render : Node → String) (xs : List Node) (s : QuestionWalk)
    (hs : s.exit = false) (h : ∀ x ∈ xs, isClassed "linked-questions" x = false) :
    questionViewRun render xs s =
      { topic := { s.topic with
          Question :=
            match (xs.filter (isClassed "question-view")).getLast? with
            | some n => parseComment render n
            | none => s.topic.Question },
        exit := false } := by
  induction xs using List.reverseRecOn with
  | nil =>
    cases s
    simp only [questionViewRun, List.filter_nil, List.getLast?_nil] at *
    rw [hs]
  | append_singleton xs x ih =>
    have hx : ¬ isClassed "linked-questions" x = true := by
      rw [h x (by simp)]; exact Bool.false_ne_true
    rw [questionViewRun_append, ih (fun y hy => h y (List.mem_append_left _ hy)),
      lastQuestion_concat, questionViewRun, if_neg Bool.false_ne_true, questionViewRun,
      parseQuestionViewEnter]
    simp only [if_neg hx]
    by_cases hq : isClassed "question-view" x = true
    · simp only [if_pos hq]
    · simp only [if_neg hq]

/-- Claim C9: for a document with no element classed `linked-questions`, `parseQuestionView` on a
    fresh Topic leaves linked_questions empty and goes through the whole tree: question is
    the record of the last element classed `question-view` in pre-order, and the zero
    record when there is none. -/
theorem C9_no_linked_questions (render : Node → String) (doc : Node)
    (h : ∀ x ∈ doc.preorder, isClassed "linked-questions" x = false) :
    (parseQuestionView render doc {}).LinkedQuestions = [] ∧
    (parseQuestionView render doc {}).Question =
      (match (doc.preorder.filter (isClassed "question-view")).getLast? with
        | some q => parseComment render q
        | none => {}) ∧
    parseQuestionViewF render doc { topic := {} } =
      questionViewRun render doc.preorder { topic := {} } := by
  have hrun := (parseQuestionViewF_eq_run render).1 doc { topic := {} } rfl
  refine ⟨?_, ?_, hrun⟩
  · show (parseQuestionViewF render doc { topic := {} }).topic.LinkedQuestions = []
    rw [hrun, questionViewRun_no_linked render _ _ rfl h]
  · show (parseQuestionViewF render doc { topic := {} }).topic.Question = _
    rw [hrun, questionViewRun_no_linked render _ _ rfl h]

/-- Claim C9, applied: with two question regions and no linked-questions block the last region
    wins; a document without any region keeps the zero record. -/
theorem C9_no_linked_questions_witness :
    (parseQuestionView renderNode twoQuestionsDoc {}).LinkedQuestions = [] ∧
    (parseQuestionView renderNode twoQuestionsDoc {}).Question = { Username := "second" } ∧
    (parseQuestionView renderNode plainDoc {}).Question = {} :=
  ⟨(C9_no_linked_questions renderNode twoQuestionsDoc (by decide)).1,
   (C9_no_linked_questions renderNode twoQuestionsDoc (by decide)).2.1.trans (by decide),
   (C9_no_linked_questions renderNode plainDoc (by decide)).2.1.trans (by decide)⟩

/-- Claim C10: when `l` is the first element classed `linked-questions` of the document in
    pre-order (`before` holds the nodes preceding it, `after` those following it),
    `parseQuestionView` enters exactly the nodes up to `l`: linked_questions is
    `parseLinkedQuestions l`, question is the record of the last `question-view` element
    among `before` and `l`, and stays what it was when there is none; the nodes of `after`
    play no part. -/
theorem C10_stop_at_linked_questions (render : Node → String) (doc l : Node)
    (before after : List Node) (topic : Topic)
    (hsplit : doc.preorder = before ++ l :: after)
    (hl : isClassed "linked-questions" l = true)
    (hb : ∀ x ∈ before, isClassed "linked-questions" x = false) :
    (parseQuestionView render doc topic).LinkedQuestions = parseLinkedQuestions render l ∧
    (parseQuestionView render doc topic).Question =
      (match ((before ++ [l]).filter (isClassed "question-view")).getLast? with
        | some q => parseComment render q
        | none => topic.Question) ∧
    parseQuestionViewF render doc { topic := topic } =
      questionViewRun render (before ++ [l]) { topic := topic } := by
  have hrun := (parseQuestionViewF_eq_run render).1 doc { topic := topic } rfl
  have hstep : questionViewRun render (before ++ [l]) { topic := topic } =
      { topic := { topic with
          Question :=
            (match ((before ++ [l]).filter (isClassed "question-view")).getLast? with
              | some q => parseComment render q
              | none => topic.Question),
          LinkedQuestions := parseLinkedQuestions render l },
        exit := true } := by
    rw [questionViewRun_append, questionViewRun_no_linked render before _ rfl hb,
      lastQuestion_concat, questionViewRun, if_neg Bool.false_ne_true, questionViewRun,
      parseQuestionViewEnter]
    simp only [if_pos hl]
    by_cases hq : isClassed "question-view" l = true
    · simp only [if_pos hq]
    · simp only [if_neg hq]
  have hall : parseQuestionViewF render doc { topic := topic } =
      questionViewRun render (before ++ [l]) { topic := topic } := by
    rw [hrun, hsplit, show before ++ l :: after = (before ++ [l]) ++ after by simp,
      questionViewRun_append, hstep, questionViewRun_exit render after _ rfl]
  refine ⟨?_, ?_, hall⟩
  · show (parseQuestionViewF render doc { topic := topic }).topic.LinkedQuestions = _
    rw [hall, hstep]
  · show (parseQuestionViewF render doc { topic := topic }).topic.Question = _
    rw [hall, hstep]

/-- Claim C10, applied: the question region before the block is taken, the one after it is not;
    when the only question region comes after the block, question stays the zero record. -/
theorem C10_stop_at_linked_questions_witness :
    (parseQuestionView renderNode linkedDoc {}).LinkedQuestions =
      [{ Username := "l1" }, { Username := "l2" }] ∧
    (parseQuestionView renderNode linkedDoc {}).Question = { Username := "early" } ∧
    (parseQuestionView renderNode lateQuestionDoc {}).Question = {} :=
  ⟨(C10_stop_at_linked_questions renderNode linkedDoc linkedBlock
      (linkedDoc.preorder.take 8) (linkedDoc.preorder.drop 9) {} (by rfl) (by decide)
      (by decide)).1.trans (by decide),
   (C10_stop_at_linked_questions renderNode linkedDoc linkedBlock
      (linkedDoc.preorder.take 8) (linkedDoc.preorder.drop 9) {} (by rfl) (by decide)
      (by decide)).2.1.trans (by decide),
   (C10_stop_at_linked_questions renderNode lateQuestionDoc linkedBlock
      (lateQuestionDoc.preorder.take 4) (lateQuestionDoc.preorder.drop 5) {} (by rfl)
      (by decide) (by decide)).2.1.trans (by decide)⟩

/-! ### Linked questions, CSV rows, missing regions and idempotence -/

theorem parseLinkedQuestionsLoop_nil (render : Node → String) (comments : List Comment) :
    parseLinkedQuestionsLoop render [] comments = comments := by
  rw [parseLinkedQuestionsLoop]

/-- The closure of `parseLinkedQuestions` appends the record of every linked-question
    element of the subtree, in pre-order. -/
theorem parseLinkedQuestionsF_eq (render : Node → String) :
    (∀ (n : Node) (comments : List Comment),
      parseLinkedQuestionsF render n comments =
        comments ++ (n.preorder.filter (isClassed "linked-question")).map
          (parseComment render)) ∧
    (∀ (cs : List Node) (comments : List Comment),
      parseLinkedQuestionsLoop render cs comments =
        comments ++ ((preorderList cs).filter (isClassed "linked-question")).map
          (parseComment render)) := by
  apply Node.induction
  · intro t d a cs ih comments
    rw [parseLinkedQuestionsF_mk, ih, preorder_mk]
    by_cases h : isClassed "linked-question" (Node.mk t d a cs) = true
    · rw [if_pos h, List.filter_cons_of_pos h, List.map_cons, List.append_assoc]
      rfl
    · rw [if_neg h, List.filter_cons_of_neg h]
  · intro comments
    rw [parseLinkedQuestionsLoop_nil, preorderList_nil]
    simp
  · intro c rest ihc ihr comments
    rw [parseLinkedQuestionsLoop_cons, ihr, ihc, preorderList_cons, List.filter_append,
      List.map_append, List.append_assoc]

/-- Claim C11: `parseLinkedQuestions` returns one record per element classed
    `linked-question` of the container subtree, nested ones included, each the
    `parseComment` of that element, in pre-order; hence as many records as such elements,
    and none when there is no such element. -/
theorem C11_linked_questions_scan (render : Node → String) (n : Node) :
    parseLinkedQuestions render n =
      (n.preorder.filter (isClassed "linked-question")).map (parseComment render) ∧
    (parseLinkedQuestions render n).length =
      (n.preorder.filter (isClassed "linked-question")).length := by
  have h : parseLinkedQuestions render n =
      (n.preorder.filter (isClassed "linked-question")).map (parseComment render) := by
    show parseLinkedQuestionsF render n [] = _
    rw [(parseLinkedQuestionsF_eq render).1, List.nil_append]
  exact ⟨h, by rw [h, List.length_map]⟩

theorem foldl_addCommentData (cs : List Comment) :
    ∀ data : List (List String),
      cs.foldl addCommentData data = data ++ cs.map recordRow := by
  induction cs with
  | nil => intro data; simp
  | cons c cs ih =>
    intro data
    rw [List.foldl_cons, ih, addCommentData, List.map_cons, List.append_assoc]
    rfl

theorem writeCSVFileData_eq (topic : Topic) :
    writeCSVFileData topic =
      headerRow :: recordRow topic.Question ::
        (topic.LinkedQuestions.map recordRow ++ topic.Comments.map recordRow) := by
  simp only [writeCSVFileData, foldl_addCommentData]
  simp [recordRow]

/-- Claim C18: the rows assembled by `writeCSVFile` are the header
    `Username, Role, Text, Datetime`, one row for the question, one row per linked question
    in order, then one row per comment in order: `2 + |linked_questions| + |comments|` rows,
    each of exactly four fields, the username, role, text and datetime of its record; the
    rows do not depend on any data_id. -/
theorem C18_csv_rows (topic : Topic) :
    writeCSVFileData topic =
      ["Username", "Role", "Text", "Datetime"] ::
        [topic.Question.Username, topic.Question.Role, topic.Question.Text,
          topic.Question.Datetime] ::
        (topic.LinkedQuestions.map (fun c => [c.Username, c.Role, c.Text, c.Datetime]) ++
          topic.Comments.map (fun c => [c.Username, c.Role, c.Text, c.Datetime])) ∧
    (writeCSVFileData topic).length =
      2 + topic.LinkedQuestions.length + topic.Comments.length ∧
    (∀ row ∈ writeCSVFileData topic, row.length = 4) ∧
    (∀ f : Comment → String, writeCSVFileData (topic.withDataIDs f) = writeCSVFileData topic) := by
  refine ⟨writeCSVFileData_eq topic, ?_, ?_, ?_⟩
  · rw [writeCSVFileData_eq]
    simp
    omega
  · rw [writeCSVFileData_eq]
    intro row hrow
    simp only [List.mem_cons, List.mem_append, List.mem_map] at hrow
    rcases hrow with rfl | rfl | ⟨c, _, rfl⟩ | ⟨c, _, rfl⟩ <;> rfl
  · intro f
    have hrow : ∀ c : Comment, recordRow { c with DataID := f c } = recordRow c :=
      fun _ => rfl
    rw [writeCSVFileData_eq, writeCSVFileData_eq]
    simp only [Topic.withDataIDs, List.map_map, Function.comp_def, hrow]

/-- Claim C18, applied to `sampleTopic`: five rows, none showing a data_id. -/
theorem C18_csv_rows_witness :
    writeCSVFileData sampleTopic =
      [["Username", "Role", "Text", "Datetime"], ["ann", "asker", "q?", "d0"],
       ["lee", "", "l", ""], ["bob", "", "a", "d1"], ["cid", "", "b", "d2"]] ∧
    (∀ row ∈ writeCSVFileData sampleTopic, row.length = 4) :=
  ⟨(C18_csv_rows sampleTopic).1.trans (by decide), (C18_csv_rows sampleTopic).2.2.1⟩

/-- A list either has no element satisfying `p` or splits at the first such element. -/
theorem split_at_first {α : Type} (p : α → Bool) (xs : List α) :
    (∀ x ∈ xs, p x = false) ∨
    ∃ before l after, xs = before ++ l :: after ∧ p l = true ∧ ∀ x ∈ before, p x = false := by
  induction xs with
  | nil => exact Or.inl (fun x hx => by cases hx)
  | cons x xs ih =>
    by_cases hx : p x = true
    · exact Or.inr ⟨[], x, xs, rfl, hx, fun y hy => by cases hy⟩
    · have hx2 : p x = false := by simpa using hx
      rcases ih with h | ⟨before, l, after, h1, h2, h3⟩
      · refine Or.inl (fun y hy => ?_)
        rcases List.mem_cons.1 hy with rfl | hy
        · exact hx2
        · exact h y hy
      · refine Or.inr ⟨x :: before, l, after, by rw [h1]; rfl, h2, fun y hy => ?_⟩
        rcases List.mem_cons.1 hy with rfl | hy
        · exact hx2
        · exact h3 y hy

/-- A run that ends at the first element classed `linked-questions`. -/
theorem questionViewRun_stop (render : Node → String) (before after : List Node) (l : Node)
    (topic : Topic) (hl : isClassed "linked-questions" l = true)
    (hb : ∀ x ∈ before, isClassed "linked-questions" x = false) :
    questionViewRun render (before ++ l :: after) { topic := topic } =
      { topic := { topic with
          Question :=
            (match ((before ++ [l]).filter (isClassed "question-view")).getLast? with
              | some q => parseComment render q
              | none => topic.Question),
          LinkedQuestions := parseLinkedQuestions render l },
        exit := true } := by
  rw [questionViewRun_append, questionViewRun_no_linked render before _ rfl hb,
    List.filter_append, questionViewRun, if_neg Bool.false_ne_true, parseQuestionViewEnter]
  simp only [if_pos hl]
  by_cases hq : isClassed "question-view" l = true
  · simp only [if_pos hq, List.filter_cons_of_pos hq, List.filter_nil, List.getLast?_concat]
    exact questionViewRun_exit render after _ rfl
  · simp only [if_neg hq, List.filter_cons_of_neg hq, List.filter_nil, List.append_nil]
    generalize (List.filter (isClassed "question-view") before).getLast? = o
    cases o <;> exact questionViewRun_exit render after _ rfl

/-- What `parseQuestionView` does to a topic: it replaces the question, or keeps it, and
    replaces the linked questions, or keeps them, in a way fixed by the document. -/
theorem parseQuestionView_shape (render : Node → String) (doc : Node) :
    ∃ (q : Option Comment) (l : Option (List Comment)), ∀ topic : Topic,
      parseQuestionView render doc topic =
        { Question := q.getD topic.Question,
          LinkedQuestions := l.getD topic.LinkedQuestions,
          Comments := topic.Comments } := by
  rcases split_at_first (isClassed "linked-questions") doc.preorder with
    h | ⟨before, l, after, h1, h2, h3⟩
  · refine ⟨((doc.preorder.filter (isClassed "question-view")).getLast?).map
      (parseComment render), none, fun topic => ?_⟩
    show (parseQuestionViewF render doc { topic := topic }).topic = _
    rw [(parseQuestionViewF_eq_run render).1 doc _ rfl,
      questionViewRun_no_linked render _ _ rfl h]
    cases (doc.preorder.filter (isClassed "question-view")).getLast? <;> rfl
  · refine ⟨(((before ++ [l]).filter (isClassed "question-view")).getLast?).map
      (parseComment render), some (parseLinkedQuestions render l), fun topic => ?_⟩
    show (parseQuestionViewF render doc { topic := topic }).topic = _
    rw [(parseQuestionViewF_eq_run render).1 doc _ rfl, h1,
      questionViewRun_stop render before after l topic h2 h3]
    cases ((before ++ [l]).filter (isClassed "question-view")).getLast? <;> rfl

/-- Claim C14: `parseTopic` is a total function of the document tree, and for a document
    with no element classed `question-view`, `linked-questions` or `comment-list` it
    returns, on a fresh Topic, the default Topic: zero question, no linked questions, no
    comments. -/
theorem C14_missing_regions_default (render : Node → String) (doc : Node)
    (h : ∀ x ∈ doc.preorder,
      isClassed "question-view" x = false ∧ isClassed "linked-questions" x = false ∧
        isClassed "comment-list" x = false) :
    parseTopic render doc {} = {} ∧
    (parseTopic render doc {}).Question = {} ∧
    (parseTopic render doc {}).LinkedQuestions = [] ∧
    (parseTopic render doc {}).Comments = [] := by
  have hq : doc.preorder.filter (isClassed "question-view") = [] :=
    List.filter_eq_nil_iff.2 (fun x hx => by rw [(h x hx).1]; exact Bool.false_ne_true)
  have hc : doc.preorder.filter (isClassed "comment-list") = [] :=
    List.filter_eq_nil_iff.2 (fun x hx => by rw [(h x hx).2.2]; exact Bool.false_ne_true)
  have hview : parseQuestionView render doc {} = {} := by
    show (parseQuestionViewF render doc { topic := {} }).topic = _
    rw [(parseQuestionViewF_eq_run render).1 doc _ rfl,
      questionViewRun_no_linked render _ _ rfl (fun x hx => (h x hx).2.1), hq]
    rfl
  have hall : parseTopic render doc {} = {} := by
    show ({ parseQuestionView render doc {} with
      Comments := parseCommentListF render doc [] } : Topic) = _
    rw [hview, (parseCommentListF_eq render).1, hc]
    rfl
  rw [hall]
  exact ⟨rfl, rfl, rfl, rfl⟩

/-- Claim C14, applied to a document without any classed element. -/
theorem C14_missing_regions_default_witness : parseTopic renderNode plainDoc {} = {} :=
  (C14_missing_regions_default renderNode plainDoc (by decide)).1

/-- Claim C17: extracting again from the same document, starting from the result of a first
    extraction, gives that result again, whatever Topic the first extraction started from;
    in particular from a fresh Topic. -/
theorem C17_extraction_idempotent (render : Node → String) (d : Node) (t : Topic) :
    parseTopic render d (parseTopic render d t) = parseTopic render d t ∧
    parseTopic render d (parseTopic render d {}) = parseTopic render d {} := by
  obtain ⟨q, l, hshape⟩ := parseQuestionView_shape render d
  have key : ∀ t0 : Topic,
      parseTopic render d (parseTopic render d t0) = parseTopic render d t0 := by
    intro t0
    show ({ parseQuestionView render d
        { parseQuestionView render d t0 with Comments := parseCommentListF render d [] } with
      Comments := parseCommentListF render d [] } : Topic) =
      { parseQuestionView render d t0 with Comments := parseCommentListF render d [] }
    rw [hshape, hshape]
    cases q <;> cases l <;> rfl
  exact ⟨key t, key {}⟩

/-! ### Tokens of a class value -/

theorem splitChars_of_no_space (p : List Char) (h : ' ' ∉ p) : splitChars p = [p] := by
  induction p with
  | nil => rfl
  | cons c cs ih =>
    have hc : ¬ c = ' ' := fun e => h (by rw [e]; exact List.mem_cons_self _ _)
    rw [splitChars, if_neg hc, ih (fun hm => h (List.mem_cons_of_mem _ hm))]

/-- Splitting at a space: the pieces before it, then the pieces after it. -/
theorem splitChars_append_space (a b : List Char) :
    splitChars (a ++ ' ' :: b) = splitChars a ++ splitChars b := by
  induction a with
  | nil => simp [splitChars]
  | cons c cs ih =>
    rw [List.cons_append, splitChars, splitChars, ih]
    by_cases hc : c = ' '
    · rw [if_pos hc, if_pos hc, List.cons_append]
    · rw [if_neg hc, if_neg hc]
      obtain ⟨x, xs, hx⟩ := List.exists_cons_of_ne_nil (splitChars_ne_nil cs)
      rw [hx, List.cons_append]
      rfl

theorem mem_splitChars_of_decomp (p pre post : List Char) (hp : ' ' ∉ p)
    (hpre : pre = [] ∨ pre.getLast? = some ' ') (hpost : post = [] ∨ post.head? = some ' ') :
    p ∈ splitChars (pre ++ p ++ post) := by
  have hright : ∀ q : List Char, (q = [] ∨ q.head? = some ' ') → p ∈ splitChars (p ++ q) := by
    intro q hq
    rcases hq with rfl | hq
    · rw [List.append_nil, splitChars_of_no_space p hp]
      exact List.mem_singleton_self _
    · cases q with
      | nil => cases hq
      | cons c q2 =>
        have hc : c = ' ' := by simpa using hq
        rw [hc, splitChars_append_space, splitChars_of_no_space p hp]
        exact List.mem_append_left _ (List.mem_singleton_self _)
  rcases hpre with rfl | hpre
  · rw [List.nil_append]
    exact hright post hpost
  · obtain ⟨pre2, rfl⟩ : ∃ pre2, pre = pre2 ++ [' '] := by
      rcases List.eq_nil_or_concat pre with h | ⟨l, c, h⟩
      · rw [h] at hpre; cases hpre
      · rw [h, List.concat_eq_append, List.getLast?_concat] at hpre
        exact ⟨l, by rw [h, List.concat_eq_append, Option.some.inj hpre]⟩
    rw [show pre2 ++ [' '] ++ p ++ post = pre2 ++ ' ' :: (p ++ post) by simp,
      splitChars_append_space]
    exact List.mem_append_right _ (hright post hpost)

theorem decomp_of_mem_splitChars :
    ∀ (k : Nat) (l p : List Char), l.length ≤ k → p ∈ splitChars l →
      ∃ pre post : List Char, l = pre ++ p ++ post ∧
        (pre = [] ∨ pre.getLast? = some ' ') ∧ (post = [] ∨ post.head? = some ' ') := by
  intro k
  induction k with
  | zero =>
    intro l p hl hp
    have : l = [] := List.length_eq_zero.1 (Nat.le_zero.1 hl)
    subst this
    rw [splitChars, List.mem_singleton] at hp
    exact ⟨[], [], by rw [hp]; rfl, Or.inl rfl, Or.inl rfl⟩
  | succ k ih =>
    intro l p hl hp
    by_cases hs : ' ' ∈ l
    · obtain ⟨a, b, rfl⟩ := List.append_of_mem hs
      rw [splitChars_append_space] at hp
      have hlen : a.length + b.length + 1 ≤ k + 1 := by
        simpa [List.length_append, Nat.add_assoc] using hl
      rcases List.mem_append.1 hp with hp | hp
      · obtain ⟨pre, post, h1, h2, h3⟩ := ih a p (by omega) hp
        refine ⟨pre, post ++ ' ' :: b, by rw [h1]; simp, h2, Or.inr ?_⟩
        cases post with
        | nil => rfl
        | cons c post2 =>
          rcases h3 with h3 | h3
          · cases h3
          · simpa using h3
      · obtain ⟨pre, post, h1, h2, h3⟩ := ih b p (by omega) hp
        refine ⟨a ++ ' ' :: pre, post, by rw [h1]; simp, Or.inr ?_, h3⟩
        rcases h2 with rfl | h2
        · simp
        · rw [show a ++ ' ' :: pre = (a ++ [' ']) ++ pre by simp]
          rw [List.getLast?_append, h2]
          rfl
    · rw [splitChars_of_no_space l hs, List.mem_singleton] at hp
      exact ⟨[], [], by rw [hp]; simp, Or.inl rfl, Or.inl rfl⟩

/-- The pieces of `splitChars` are the space-free parts delimited by spaces or the ends. -/
theorem mem_splitChars_iff (l p : List Char) :
    p ∈ splitChars l ↔
      ' ' ∉ p ∧ ∃ pre post : List Char, l = pre ++ p ++ post ∧
        (pre = [] ∨ pre.getLast? = some ' ') ∧ (post = [] ∨ post.head? = some ' ') := by
  constructor
  · intro hp
    exact ⟨splitChars_no_space l p hp, decomp_of_mem_splitChars l.length l p (le_refl _) hp⟩
  · rintro ⟨hp, pre, post, rfl, h2, h3⟩
    exact mem_splitChars_of_decomp p pre post hp h2 h3

theorem mem_splitSpace_iff (t v : String) : t ∈ splitSpace v ↔ t.data ∈ splitChars v.data := by
  rw [splitSpace, List.mem_map]
  constructor
  · rintro ⟨p, hp, rfl⟩
    exact hp
  · intro h
    exact ⟨t.data, h, rfl⟩

/-- The class matcher on a node whose class attributes are the single attribute `c`. -/
theorem nodeHasRequiredCssClass_single (t : String) (n : Node) (c : Attribute)
    (hattr : n.attr.filter (fun a => decide (a.Key = "class")) = [c]) :
    nodeHasRequiredCssClass t n = true ↔ t.data ∈ splitChars c.Val.data := by
  rw [nodeHasRequiredCssClass, nodeHasRequiredCssClassLoop_iff, ← mem_splitSpace_iff]
  have hmem : ∀ a : Attribute, (a ∈ n.attr ∧ a.Key = "class") ↔ a = c := by
    intro a
    have := @List.mem_filter _ (fun a => decide (a.Key = "class")) n.attr a
    rw [hattr, List.mem_singleton] at this
    rw [this]
    simp
  constructor
  · rintro ⟨a, ha, hk, hm⟩
    rw [← (hmem a).1 ⟨ha, hk⟩]
    exact hm
  · intro hm
    obtain ⟨hc1, hc2⟩ := (hmem c).2 rfl
    exact ⟨c, hc1, hc2, hm⟩

theorem nodeHasRequiredCssClass_classed (t tag v : String) (cs : List Node) :
    nodeHasRequiredCssClass t (classed tag v cs) = true ↔ t.data ∈ splitChars v.data :=
  nodeHasRequiredCssClass_single t (classed tag v cs) { Key := "class", Val := v } (by rfl)

/-- Claim C20: for a non-empty target `t` and a node whose only class attribute is `c`,
    `nodeHasRequiredCssClass(t, n)` is true exactly when `t` is one of the maximal
    space-free non-empty parts of the value of `c` (a target holding a space never is).
    Hence doubling a space between tokens, or adding a leading or a trailing space, does
    not change the result. -/
theorem C20_repeated_spaces_tolerated (t : String) (ht : t ≠ "") :
    (∀ (n : Node) (c : Attribute),
      n.attr.filter (fun a => decide (a.Key = "class")) = [c] →
      (nodeHasRequiredCssClass t n = true ↔ IsSpaceFreeToken t.data c.Val.data)) ∧
    (∀ (tag a b : String) (cs : List Node),
      nodeHasRequiredCssClass t (classed tag (a ++ "  " ++ b) cs) =
        nodeHasRequiredCssClass t (classed tag (a ++ " " ++ b) cs)) ∧
    (∀ (tag v : String) (cs : List Node),
      nodeHasRequiredCssClass t (classed tag (" " ++ v) cs) =
        nodeHasRequiredCssClass t (classed tag v cs)) ∧
    (∀ (tag v : String) (cs : List Node),
      nodeHasRequiredCssClass t (classed tag (v ++ " ") cs) =
        nodeHasRequiredCssClass t (classed tag v cs)) := by
  have ht2 : t.data ≠ [] := fun h => ht (String.ext h)
  have ht3 : ¬ t.data = [] := ht2
  have ht4 : ¬ [] = t.data := fun h => ht2 h.symm
  refine ⟨?_, ?_, ?_, ?_⟩
  · intro n c hattr
    rw [nodeHasRequiredCssClass_single t n c hattr, mem_splitChars_iff]
    constructor
    · rintro ⟨h1, h2⟩
      exact ⟨ht2, h1, h2⟩
    · rintro ⟨_, h1, h2⟩
      exact ⟨h1, h2⟩
  · intro tag a b cs
    rw [Bool.eq_iff_iff, nodeHasRequiredCssClass_classed, nodeHasRequiredCssClass_classed]
    have e1 : (a ++ "  " ++ b).data = a.data ++ ' ' :: (' ' :: b.data) := by
      simp [String.data_append]
    have e2 : (a ++ " " ++ b).data = a.data ++ ' ' :: b.data := by
      simp [String.data_append]
    rw [e1, e2, splitChars_append_space, splitChars_append_space,
      show ' ' :: b.data = [] ++ ' ' :: b.data from rfl, splitChars_append_space]
    simp [splitChars, ht3, ht4]
  · intro tag v cs
    rw [Bool.eq_iff_iff, nodeHasRequiredCssClass_classed, nodeHasRequiredCssClass_classed]
    have e1 : (" " ++ v).data = [] ++ ' ' :: v.data := by
      simp [String.data_append]
    rw [e1, splitChars_append_space]
    simp [splitChars, ht3, ht4]
  · intro tag v cs
    rw [Bool.eq_iff_iff, nodeHasRequiredCssClass_classed, nodeHasRequiredCssClass_classed]
    have e1 : (v ++ " ").data = v.data ++ ' ' :: [] := by
      simp [String.data_append]
    rw [e1, splitChars_append_space]
    simp [splitChars, ht3, ht4]

/-- Claim C20, applied: `b` is found in the class value ` a   b ` (leading, repeated and
    trailing spaces), where it is a maximal space-free part; a tab does not separate. -/
theorem C20_repeated_spaces_tolerated_witness :
    nodeHasRequiredCssClass "b" (classed "span" " a   b " []) = true ∧
    nodeHasRequiredCssClass "b" (classed "span" " b" []) =
      nodeHasRequiredCssClass "b" (classed "span" "b" []) ∧
    nodeHasRequiredCssClass "b" (classed "span" "a\tb" []) = false :=
  ⟨((C20_repeated_spaces_tolerated "b" (by decide)).1 (classed "span" " a   b " [])
      { Key := "class", Val := " a   b " } (by rfl)).2
      ⟨by decide, by decide, " a   ".data, " ".data, by rfl, Or.inr (by rfl), Or.inr (by rfl)⟩,
   (C20_repeated_spaces_tolerated "b" (by decide)).2.2.1 "span" "b" [],
   by decide⟩

/-! ### The fields of a record -/

theorem parseCommentEnter_username (render : Node → String) (p : Path) (n : Node)
    (s : CommentWalk) :
    (parseCommentEnter render p n s).comment.Username =
      if isClassed "username" n = true then getInnerText n else s.comment.Username := by
  simp only [parseCommentEnter]
  split <;> split_ifs <;> simp_all

theorem parseCommentEnter_role (render : Node → String) (p : Path) (n : Node)
    (s : CommentWalk) :
    (parseCommentEnter render p n s).comment.Role =
      if isClassed "role" n = true then getInnerText n else s.comment.Role := by
  simp only [parseCommentEnter]
  split <;> split_ifs <;> simp_all

theorem parseCommentEnter_dataID (render : Node → String) (p : Path) (n : Node)
    (s : CommentWalk) :
    (parseCommentEnter render p n s).comment.DataID =
      if isClassed "comment-text" n = true then getRequiredDataAttr "data-id" n
      else s.comment.DataID := by
  simp only [parseCommentEnter]
  split <;> split_ifs <;> simp_all

theorem parseCommentEnter_datetime (render : Node → String) (p : Path) (n : Node)
    (s : CommentWalk) :
    (parseCommentEnter render p n s).comment.Datetime =
      if isClassed "datetime" n = true then trimSpace (getInnerText n)
      else s.comment.Datetime := by
  simp only [parseCommentEnter]
  split <;> split_ifs <;> simp_all

theorem parseCommentLeave_fields (p : Path) (s : CommentWalk) :
    (parseCommentLeave p s).comment.Username = s.comment.Username ∧
    (parseCommentLeave p s).comment.Role = s.comment.Role ∧
    (parseCommentLeave p s).comment.DataID = s.comment.DataID ∧
    (parseCommentLeave p s).comment.Datetime = s.comment.Datetime ∧
    (parseCommentLeave p s).exit = s.exit := by
  rw [parseCommentLeave]
  split_ifs <;> exact ⟨rfl, rfl, rfl, rfl, rfl⟩

/-- A quantity that the leaving step keeps, and that the entering step keeps at every node
    satisfying `ok`, is kept by the traversal of a subtree all of whose nodes satisfy `ok`. -/
theorem parseCommentF_keeps {α : Type} (render : Node → String) (g : CommentWalk → α)
    (ok : Node → Prop)
    (henter : ∀ (p : Path) (n : Node) (s : CommentWalk), ok n →
      g (parseCommentEnter render p n s) = g s)
    (hleave : ∀ (p : Path) (s : CommentWalk), g (parseCommentLeave p s) = g s) :
    (∀ (n : Node) (p : Path) (s : CommentWalk), (∀ x ∈ n.preorder, ok x) →
      g (parseCommentF render n p s) = g s) ∧
    (∀ (cs : List Node) (p : Path) (i : Nat) (s : CommentWalk),
      (∀ x ∈ preorderList cs, ok x) → g (parseCommentLoop render cs p i s) = g s) := by
  apply Node.induction
  · intro t d a cs ih p s h
    rw [preorder_mk] at h
    rw [parseCommentF_mk, hleave, ih p 0 _ (fun x hx => h x (List.mem_cons_of_mem _ hx)),
      henter p _ s (h _ (List.mem_cons_self _ _))]
  · intro p i s _
    rw [parseCommentLoop_nil]
  · intro c rest ihc ihr p i s h
    rw [preorderList_cons] at h
    rw [parseCommentLoop_cons]
    split_ifs
    · rfl
    · rw [ihr p (i + 1) _ (fun x hx => h x (List.mem_append_right _ hx)),
        ihc (p ++ [i]) s (fun x hx => h x (List.mem_append_left _ hx))]

/-- A subtree without comment-text element, traversed while no anchor is set, leaves the
    anchor unset and keeps the text and the buffer. -/
theorem parseCommentF_no_anchor (render : Node → String) :
    (∀ (n : Node) (p : Path) (s : CommentWalk),
      (∀ x ∈ n.preorder, isClassed "comment-text" x = false) → s.nAnchor = none →
      (parseCommentF render n p s).nAnchor = none ∧
      (parseCommentF render n p s).bufInnerHtml = s.bufInnerHtml ∧
      (parseCommentF render n p s).comment.Text = s.comment.Text) ∧
    (∀ (cs : List Node) (p : Path) (i : Nat) (s : CommentWalk),
      (∀ x ∈ preorderList cs, isClassed "comment-text" x = false) → s.nAnchor = none →
      (parseCommentLoop render cs p i s).nAnchor = none ∧
      (parseCommentLoop render cs p i s).bufInnerHtml = s.bufInnerHtml ∧
      (parseCommentLoop render cs p i s).comment.Text = s.comment.Text) := by
  apply Node.induction
  · intro t d a cs ih p s h ha
    rw [preorder_mk] at h
    have hct := h _ (List.mem_cons_self _ _)
    have e1 : (parseCommentEnter render p (Node.mk t d a cs) s).nAnchor = none := by
      rw [parseCommentEnter_nAnchor, hct, ha]; rfl
    have e3 : (parseCommentEnter render p (Node.mk t d a cs) s).bufInnerHtml
        = s.bufInnerHtml := by
      rw [parseCommentEnter_buf, hct, ha]; rfl
    have e4 := parseCommentEnter_text render p (Node.mk t d a cs) s
    obtain ⟨l1, l3, l4⟩ := ih p 0 _ (fun x hx => h x (List.mem_cons_of_mem _ hx)) e1
    rw [parseCommentF_mk, parseCommentLeave_of_ne _ _ (by rw [l1]; exact Option.noConfusion)]
    exact ⟨l1, l3.trans e3, l4.trans e4⟩
  · intro p i s _ ha
    rw [parseCommentLoop_nil]
    exact ⟨ha, rfl, rfl⟩
  · intro c rest ihc ihr p i s h ha
    rw [preorderList_cons] at h
    rw [parseCommentLoop_cons]
    split_ifs
    · exact ⟨ha, rfl, rfl⟩
    · obtain ⟨c1, c3, c4⟩ := ihc (p ++ [i]) s (fun x hx => h x (List.mem_append_left _ hx)) ha
      obtain ⟨r1, r3, r4⟩ :=
        ihr p (i + 1) _ (fun x hx => h x (List.mem_append_right _ hx)) c1
      exact ⟨r1, r3.trans c3, r4.trans c4⟩

/-- The data_id after the traversal of a subtree is the one before it, or the `data-id`
    attribute of a comment-text element of the subtree. -/
theorem parseCommentF_dataID_source (render : Node → String) :
    (∀ (n : Node) (p : Path) (s : CommentWalk),
      (parseCommentF render n p s).comment.DataID = s.comment.DataID ∨
      ∃ x ∈ n.preorder, isClassed "comment-text" x = true ∧
        (parseCommentF render n p s).comment.DataID = getRequiredDataAttr "data-id" x) ∧
    (∀ (cs : List Node) (p : Path) (i : Nat) (s : CommentWalk),
      (parseCommentLoop render cs p i s).comment.DataID = s.comment.DataID ∨
      ∃ x ∈ preorderList cs, isClassed "comment-text" x = true ∧
        (parseCommentLoop render cs p i s).comment.DataID = getRequiredDataAttr "data-id" x) := by
  apply Node.induction
  · intro t d a cs ih p s
    rw [parseCommentF_mk, (parseCommentLeave_fields p _).2.2.1, preorder_mk]
    rcases ih p 0 (parseCommentEnter render p (Node.mk t d a cs) s) with h | ⟨x, hx, hc, h⟩
    · rw [h, parseCommentEnter_dataID]
      by_cases hct : isClassed "comment-text" (Node.mk t d a cs) = true
      · rw [if_pos hct]
        exact Or.inr ⟨_, List.mem_cons_self _ _, hct, rfl⟩
      · rw [if_neg hct]
        exact Or.inl rfl
    · exact Or.inr ⟨x, List.mem_cons_of_mem _ hx, hc, h⟩
  · intro p i s
    rw [parseCommentLoop_nil]
    exact Or.inl rfl
  · intro c rest ihc ihr p i s
    rw [parseCommentLoop_cons, preorderList_cons]
    split_ifs
    · exact Or.inl rfl
    · rcases ihr p (i + 1) (parseCommentF render c (p ++ [i]) s) with h | ⟨x, hx, hc, h⟩
      · rw [h]
        rcases ihc (p ++ [i]) s with h2 | ⟨x, hx, hc, h2⟩
        · exact Or.inl h2
        · exact Or.inr ⟨x, List.mem_append_left _ hx, hc, h2⟩
      · exact Or.inr ⟨x, List.mem_append_right _ hx, hc, h⟩

/-- Claim C13: `parseComment` returns username `""` when no element of the subtree is
    classed `username`, role `""` when none is classed `role`, datetime `""` when none is
    classed `datetime`, text `""` and data_id `""` when none is classed `comment-text`;
    and a data_id that is not empty is the `data-id` attribute of an element classed
    `comment-text` of the subtree. -/
theorem C13_missing_fields_zero (render : Node → String) (r : Node) :
    ((∀ x ∈ r.preorder, isClassed "username" x = false) →
      (parseComment render r).Username = "") ∧
    ((∀ x ∈ r.preorder, isClassed "role" x = false) → (parseComment render r).Role = "") ∧
    ((∀ x ∈ r.preorder, isClassed "datetime" x = false) →
      (parseComment render r).Datetime = "") ∧
    ((∀ x ∈ r.preorder, isClassed "comment-text" x = false) →
      (parseComment render r).Text = "" ∧ (parseComment render r).DataID = "") ∧
    ((parseComment render r).DataID ≠ "" →
      ∃ x ∈ r.preorder, isClassed "comment-text" x = true ∧
        (parseComment render r).DataID = getRequiredDataAttr "data-id" x) := by
  refine ⟨fun h => ?_, fun h => ?_, fun h => ?_, fun h => ⟨?_, ?_⟩, fun h => ?_⟩
  · exact (parseCommentF_keeps render (fun s => s.comment.Username)
      (fun x => isClassed "username" x = false)
      (fun p n s hn => by
        show (parseCommentEnter render p n s).comment.Username = _
        rw [parseCommentEnter_username, hn]; rfl)
      (fun p s => (parseCommentLeave_fields p s).1)).1 r [] {} h
  · exact (parseCommentF_keeps render (fun s => s.comment.Role)
      (fun x => isClassed "role" x = false)
      (fun p n s hn => by
        show (parseCommentEnter render p n s).comment.Role = _
        rw [parseCommentEnter_role, hn]; rfl)
      (fun p s => (parseCommentLeave_fields p s).2.1)).1 r [] {} h
  · exact (parseCommentF_keeps render (fun s => s.comment.Datetime)
      (fun x => isClassed "datetime" x = false)
      (fun p n s hn => by
        show (parseCommentEnter render p n s).comment.Datetime = _
        rw [parseCommentEnter_datetime, hn]; rfl)
      (fun p s => (parseCommentLeave_fields p s).2.2.2.1)).1 r [] {} h
  · exact ((parseCommentF_no_anchor render).1 r [] {} h rfl).2.2
  · exact (parseCommentF_keeps render (fun s => s.comment.DataID)
      (fun x => isClassed "comment-text" x = false)
      (fun p n s hn => by
        show (parseCommentEnter render p n s).comment.DataID = _
        rw [parseCommentEnter_dataID, hn]; rfl)
      (fun p s => (parseCommentLeave_fields p s).2.2.1)).1 r [] {} h
  · rcases (parseCommentF_dataID_source render).1 r [] {} with h2 | h2
    · exact absurd h2 h
    · exact h2

/-- Claim C13, applied: a record without classed elements gives the zero record, and the
    data_id `c3` of `stampedRecord` is the `data-id` attribute of its comment-text element. -/
theorem C13_missing_fields_zero_witness :
    (parseComment renderNode (element "p" [] [textNode "x"])).Username = "" ∧
    ((parseComment renderNode (element "p" [] [textNode "x"])).Text = "" ∧
      (parseComment renderNode (element "p" [] [textNode "x"])).DataID = "") ∧
    ∃ x ∈ stampedRecord.preorder, isClassed "comment-text" x = true ∧
      (parseComment renderNode stampedRecord).DataID = getRequiredDataAttr "data-id" x :=
  ⟨(C13_missing_fields_zero renderNode (element "p" [] [textNode "x"])).1 (by decide),
   (C13_missing_fields_zero renderNode (element "p" [] [textNode "x"])).2.2.2.1 (by decide),
   (C13_missing_fields_zero renderNode stampedRecord).2.2.2.2 (by decide)⟩

theorem getInnerTextLoop_eq_find (cs : List Node) :
    getInnerTextLoop cs =
      ((cs.find? (fun c => decide (c.type = NodeType.TextNode))).map Node.data).getD "" := by
  induction cs with
  | nil => rfl
  | cons c rest ih =>
    rw [getInnerTextLoop, List.find?_cons]
    by_cases h : c.type = NodeType.TextNode
    · simp [h]
    · simp [h, ih]

/-- What `trimSpace` removes is white space at both ends, and nothing else: the result
    neither begins nor ends with white space. -/
theorem trimSpace_spec (s : String) :
    (∃ l r : List Char, s.data = l ++ (trimSpace s).data ++ r ∧
      (∀ c ∈ l, isSpace c = true) ∧ (∀ c ∈ r, isSpace c = true)) ∧
    (∀ c, (trimSpace s).data.head? = some c → isSpace c = false) ∧
    (∀ c, (trimSpace s).data.getLast? = some c → isSpace c = false) := by
  have hm : s.data.dropWhile isSpace =
      (trimSpace s).data ++ (((s.data.dropWhile isSpace).reverse).takeWhile isSpace).reverse := by
    have h := List.takeWhile_append_dropWhile isSpace (s.data.dropWhile isSpace).reverse
    have h2 := congrArg List.reverse h
    rw [List.reverse_append, List.reverse_reverse] at h2
    exact h2.symm
  have hlast : ∀ c, (trimSpace s).data.getLast? = some c → isSpace c = false := by
    intro c hc
    have hc2 : (List.dropWhile isSpace (s.data.dropWhile isSpace).reverse).head? = some c := by
      rw [← List.getLast?_reverse]
      exact hc
    have := List.head?_dropWhile_not isSpace (s.data.dropWhile isSpace).reverse
    rw [hc2] at this
    simpa using this
  refine ⟨⟨s.data.takeWhile isSpace,
    (((s.data.dropWhile isSpace).reverse).takeWhile isSpace).reverse, ?_,
    fun c hc => List.mem_takeWhile_imp hc,
    fun c hc => List.mem_takeWhile_imp (List.mem_reverse.1 hc)⟩, ?_, hlast⟩
  · rw [List.append_assoc, ← hm, List.takeWhile_append_dropWhile]
  · intro c hc
    have hne : (trimSpace s).data ≠ [] := by
      intro h0
      rw [h0] at hc
      cases hc
    have hc2 : (s.data.dropWhile isSpace).head? = some c := by
      rw [hm, List.head?_append_of_ne_nil _ hne]
      exact hc
    have := List.head?_dropWhile_not isSpace s.data
    rw [hc2] at this
    simpa using this

/-! ### The datetime element ends the traversal -/

/-- The traversal sets the datetime at the first datetime element in pre-order and stops. -/
theorem parseCommentF_first_datetime (render : Node → String) (dt : Node)
    (hD : isClassed "datetime" dt = true) :
    (∀ (n : Node) (p : Path) (s : CommentWalk) (before rest : List Node),
      n.preorder = before ++ dt :: rest →
      (∀ x ∈ before, isClassed "datetime" x = false) → s.exit = false →
      (parseCommentF render n p s).comment.Datetime = trimSpace (getInnerText dt) ∧
      (parseCommentF render n p s).exit = true) ∧
    (∀ (cs : List Node) (p : Path) (i : Nat) (s : CommentWalk) (before rest : List Node),
      preorderList cs = before ++ dt :: rest →
      (∀ x ∈ before, isClassed "datetime" x = false) → s.exit = false →
      (parseCommentLoop render cs p i s).comment.Datetime = trimSpace (getInnerText dt) ∧
      (parseCommentLoop render cs p i s).exit = true) := by
  have hkeep := parseCommentF_keeps render (fun s => s.exit)
    (fun x => isClassed "datetime" x = false)
    (fun p n s hn => by
      show (parseCommentEnter render p n s).exit = _
      rw [parseCommentEnter_exit, hn, Bool.or_false])
    (fun p s => (parseCommentLeave_fields p s).2.2.2.2)
  apply Node.induction
  · intro t d a cs ih p s before rest hsplit hclean he
    rw [preorder_mk] at hsplit
    rw [parseCommentF_mk, (parseCommentLeave_fields p _).2.2.2.1,
      (parseCommentLeave_fields p _).2.2.2.2]
    cases before with
    | nil =>
      rw [List.nil_append] at hsplit
      rw [(List.cons.inj hsplit).1]
      have e2 : (parseCommentEnter render p dt s).exit = true := by
        rw [parseCommentEnter_exit, hD, Bool.or_true]
      rw [parseCommentLoop_exit render _ _ _ _ e2, parseCommentEnter_datetime, if_pos hD]
      exact ⟨rfl, e2⟩
    | cons b before2 =>
      rw [List.cons_append] at hsplit
      obtain ⟨hb1, hb2⟩ := List.cons.inj hsplit
      have hdt := hclean b (List.mem_cons_self _ _)
      rw [← hb1] at hdt
      have e2 : (parseCommentEnter render p (Node.mk t d a cs) s).exit = false := by
        rw [parseCommentEnter_exit, hdt, he]; rfl
      exact ih p 0 _ before2 rest hb2 (fun x hx => hclean x (List.mem_cons_of_mem _ hx)) e2
  · intro p i s before rest hsplit
    rw [preorderList_nil] at hsplit
    cases before <;> cases hsplit
  · intro c tl ihc ihr p i s before rest hsplit hclean he
    rw [preorderList_cons] at hsplit
    have he2 : ¬ s.exit = true := by rw [he]; exact Bool.false_ne_true
    rw [parseCommentLoop_cons, if_neg he2]
    rcases List.append_eq_append_iff.1 hsplit with ⟨m, hm1, hm2⟩ | ⟨m, hm1, hm2⟩
    · have c2 : (parseCommentF render c (p ++ [i]) s).exit = false :=
        (hkeep.1 c (p ++ [i]) s
          (fun x hx => hclean x (by rw [hm1]; exact List.mem_append_left _ hx))).trans he
      exact ihr p (i + 1) _ m rest hm2
        (fun x hx => hclean x (by rw [hm1]; exact List.mem_append_right _ hx)) c2
    · cases m with
      | nil =>
        rw [List.append_nil] at hm1
        rw [List.nil_append] at hm2
        have c2 : (parseCommentF render c (p ++ [i]) s).exit = false :=
          (hkeep.1 c (p ++ [i]) s (fun x hx => hclean x (by rw [← hm1]; exact hx))).trans he
        exact ihr p (i + 1) _ [] rest hm2.symm (fun x hx => by cases hx) c2
      | cons m0 m2 =>
        rw [List.cons_append] at hm2
        obtain ⟨hm0, _⟩ := List.cons.inj hm2
        rw [← hm0] at hm1
        obtain ⟨l1, l2⟩ := ihc (p ++ [i]) s before m2 hm1 hclean he
        rw [parseCommentLoop_exit render _ _ _ _ l2]
        exact ⟨l1, l2⟩

/-- Claim C15: when `dt` is the first element classed `datetime` of the record subtree in
    pre-order, the datetime returned by `parseComment` is the data of the first text-node
    child of `dt` (`""` when it has none) with the white space at both ends removed; the
    elements after `dt`, later datetime elements included, play no part. -/
theorem C15_datetime_read_once (render : Node → String) (r dt : Node)
    (before rest : List Node)
    (hpos : r.preorder = before ++ dt :: rest)
    (hbefore : ∀ x ∈ before, isClassed "datetime" x = false)
    (hD : isClassed "datetime" dt = true) :
    (parseComment render r).Datetime =
      trimSpace
        (((dt.children.find? (fun c => decide (c.type = NodeType.TextNode))).map
          Node.data).getD "") ∧
    (∀ c, (parseComment render r).Datetime.data.head? = some c → isSpace c = false) ∧
    (∀ c, (parseComment render r).Datetime.data.getLast? = some c → isSpace c = false) := by
  have h : (parseComment render r).Datetime =
      trimSpace
        (((dt.children.find? (fun c => decide (c.type = NodeType.TextNode))).map
          Node.data).getD "") := by
    rw [← getInnerTextLoop_eq_find]
    exact ((parseCommentF_first_datetime render dt hD).1 r [] {} before rest hpos hbefore
      rfl).1
  rw [h]
  exact ⟨rfl, (trimSpace_spec _).2.1, (trimSpace_spec _).2.2⟩

/-- Claim C15, applied: the first datetime element of `earlyStampRecord` has an element
    child before its first text node; that text is trimmed, the later datetime element is
    not read. -/
theorem C15_datetime_read_once_witness :
    (parseComment renderNode earlyStampRecord).Datetime = "2024-05-06 10:00" :=
  (C15_datetime_read_once renderNode earlyStampRecord
    (classed "span" "datetime"
      [element "b" [] [], textNode "\n  2024-05-06 10:00\t", textNode "x"])
    (earlyStampRecord.preorder.take 3) (earlyStampRecord.preorder.drop 4)
    (by rfl) (by decide) (by decide)).1.trans (by decide)

/-! ### The body protocol and nested anchors -/

theorem renderAll_append (render : Node → String) (xs ys : List Node) :
    renderAll render (xs ++ ys) = renderAll render xs ++ renderAll render ys := by
  induction xs with
  | nil => rw [List.nil_append, renderAll, String.empty_append]
  | cons x xs ih => rw [List.cons_append, renderAll, renderAll, ih, String.append_assoc]

/-- In the pre-order of a subtree every node is directly followed by the nodes below it. -/
theorem preorder_contiguous :
    (∀ (n : Node) (before : List Node) (a : Node) (m : List Node),
      n.preorder = before ++ a :: m → ∃ m3, m = preorderList a.children ++ m3) ∧
    (∀ (cs : List Node) (before : List Node) (a : Node) (m : List Node),
      preorderList cs = before ++ a :: m → ∃ m3, m = preorderList a.children ++ m3) := by
  apply Node.induction
  · intro t d at0 cs ih before a m h
    rw [preorder_mk] at h
    cases before with
    | nil =>
      rw [List.nil_append] at h
      obtain ⟨h1, h2⟩ := List.cons.inj h
      exact ⟨[], by rw [← h1, ← h2, List.append_nil]; rfl⟩
    | cons b before2 =>
      rw [List.cons_append] at h
      exact ih before2 a m (List.cons.inj h).2
  · intro before a m h
    rw [preorderList_nil] at h
    cases before <;> cases h
  · intro c tl ihc ihr before a m h
    rw [preorderList_cons] at h
    rcases List.append_eq_append_iff.1 h with ⟨m1, _, hm2⟩ | ⟨m1, hm1, hm2⟩
    · exact ihr m1 a m hm2
    · cases m1 with
      | nil =>
        rw [List.nil_append] at hm2
        exact ihr [] a m hm2.symm
      | cons m0 m2 =>
        rw [List.cons_append] at hm2
        obtain ⟨hm0, hm3⟩ := List.cons.inj hm2
        rw [← hm0] at hm1
        obtain ⟨m3, hm4⟩ := ihc before a m2 hm1
        exact ⟨m3 ++ preorderList tl, by rw [hm3, hm4, List.append_assoc]⟩

/-- The traversal reaches the node `anchor` once the nodes before it in pre-order, none
    classed comment-text or datetime, are done; when no element classed comment-text
    follows the subtree of `anchor`, the text and the data_id that the traversal of
    `anchor` fixes are those of the whole traversal. -/
theorem parseCommentF_reach_anchor (render : Node → String) (anchor : Node)
    (txt did : String)
    (hanchor : ∀ (p : Path) (s : CommentWalk),
      s.nAnchor = none → s.exit = false → s.bufInnerHtml = "" →
      (parseCommentF render anchor p s).comment.Text = txt ∧
      (parseCommentF render anchor p s).comment.DataID = did ∧
      (parseCommentF render anchor p s).nAnchor = none) :
    (∀ (n : Node) (p : Path) (s : CommentWalk) (before after : List Node),
      n.preorder = before ++ anchor :: (preorderList anchor.children ++ after) →
      (∀ x ∈ before, isClassed "comment-text" x = false ∧ isClassed "datetime" x = false) →
      (∀ x ∈ after, isClassed "comment-text" x = false) →
      s.nAnchor = none → s.exit = false → s.bufInnerHtml = "" →
      (parseCommentF render n p s).comment.Text = txt ∧
      (parseCommentF render n p s).comment.DataID = did ∧
      (parseCommentF render n p s).nAnchor = none) ∧
    (∀ (cs : List Node) (p : Path) (i : Nat) (s : CommentWalk) (before after : List Node),
      preorderList cs = before ++ anchor :: (preorderList anchor.children ++ after) →
      (∀ x ∈ before, isClassed "comment-text" x = false ∧ isClassed "datetime" x = false) →
      (∀ x ∈ after, isClassed "comment-text" x = false) →
      s.nAnchor = none → s.exit = false → s.bufInnerHtml = "" →
      (parseCommentLoop render cs p i s).comment.Text = txt ∧
      (parseCommentLoop render cs p i s).comment.DataID = did ∧
      (parseCommentLoop render cs p i s).nAnchor = none) := by
  have hid := parseCommentF_keeps render (fun s => s.comment.DataID)
    (fun x => isClassed "comment-text" x = false)
    (fun p n s hn => by
      show (parseCommentEnter render p n s).comment.DataID = _
      rw [parseCommentEnter_dataID, hn]; rfl)
    (fun p s => (parseCommentLeave_fields p s).2.2.1)
  apply Node.induction
  · intro t d a cs ih p s before after hsplit hclean hafter ha he hb
    rw [preorder_mk] at hsplit
    cases before with
    | nil =>
      rw [List.nil_append] at hsplit
      rw [(List.cons.inj hsplit).1]
      exact hanchor p s ha he hb
    | cons b before2 =>
      rw [List.cons_append] at hsplit
      obtain ⟨hb1, hb2⟩ := List.cons.inj hsplit
      obtain ⟨hct, hdt⟩ := hclean b (List.mem_cons_self _ _)
      rw [← hb1] at hct hdt
      have e1 : (parseCommentEnter render p (Node.mk t d a cs) s).nAnchor = none := by
        rw [parseCommentEnter_nAnchor, hct, ha]; rfl
      have e2 : (parseCommentEnter render p (Node.mk t d a cs) s).exit = false := by
        rw [parseCommentEnter_exit, hdt, he]; rfl
      have e3 : (parseCommentEnter render p (Node.mk t d a cs) s).bufInnerHtml = "" := by
        rw [parseCommentEnter_buf, hct, ha]; exact hb
      obtain ⟨l1, l2, l3⟩ := ih p 0 _ before2 after hb2
        (fun x hx => hclean x (List.mem_cons_of_mem _ hx)) hafter e1 e2 e3
      rw [parseCommentF_mk, parseCommentLeave_of_ne _ _ (by rw [l3]; exact Option.noConfusion)]
      exact ⟨l1, l2, l3⟩
  · intro p i s before after hsplit
    rw [preorderList_nil] at hsplit
    cases before <;> cases hsplit
  · intro c tl ihc ihr p i s before after hsplit hclean hafter ha he hb
    rw [preorderList_cons] at hsplit
    have he2 : ¬ s.exit = true := by rw [he]; exact Bool.false_ne_true
    rw [parseCommentLoop_cons, if_neg he2]
    rcases List.append_eq_append_iff.1 hsplit with ⟨m, hm1, hm2⟩ | ⟨m, hm1, hm2⟩
    · obtain ⟨c1, c2, c3, _⟩ := (parseCommentF_plain render).1 c (p ++ [i]) s
        (fun x hx => hclean x (by rw [hm1]; exact List.mem_append_left _ hx)) ha he
      exact ihr p (i + 1) _ m after hm2
        (fun x hx => hclean x (by rw [hm1]; exact List.mem_append_right _ hx)) hafter c1 c2
        (c3.trans hb)
    · cases m with
      | nil =>
        rw [List.append_nil] at hm1
        rw [List.nil_append] at hm2
        obtain ⟨c1, c2, c3, _⟩ := (parseCommentF_plain render).1 c (p ++ [i]) s
          (fun x hx => hclean x (by rw [← hm1]; exact hx)) ha he
        exact ihr p (i + 1) _ [] after hm2.symm (fun x hx => by cases hx) hafter c1 c2
          (c3.trans hb)
      | cons m0 m2 =>
        rw [List.cons_append] at hm2
        obtain ⟨hm0, hm3⟩ := List.cons.inj hm2
        rw [← hm0] at hm1
        obtain ⟨m3, hm4⟩ := preorder_contiguous.1 c before anchor m2 hm1
        rw [hm4, List.append_assoc] at hm3
        have hafter2 : after = m3 ++ preorderList tl := List.append_cancel_left hm3
        rw [hm4] at hm1
        obtain ⟨l1, l2, l3⟩ := ihc (p ++ [i]) s before m3 hm1 hclean
          (fun x hx => hafter x (by rw [hafter2]; exact List.mem_append_left _ hx)) ha he hb
        have htl : ∀ x ∈ preorderList tl, isClassed "comment-text" x = false :=
          fun x hx => hafter x (by rw [hafter2]; exact List.mem_append_right _ hx)
        obtain ⟨r1, _, r3⟩ := (parseCommentF_no_anchor render).2 tl p (i + 1) _ htl l3
        exact ⟨r3.trans l1, (hid.2 tl p (i + 1) _ htl).trans l2, r1⟩

/-- A subtree without comment-text and datetime element, traversed while the anchor is a
    node outside it: every node of the subtree is written once into the buffer, in
    pre-order. -/
theorem parseCommentF_inside_anchor (render : Node → String) (a : Path) :
    (∀ (n : Node) (p : Path) (s : CommentWalk),
      (∀ x ∈ n.preorder, isClassed "comment-text" x = false ∧ isClassed "datetime" x = false) →
      s.nAnchor = some a → a.length < p.length → s.exit = false →
      (parseCommentF render n p s).nAnchor = some a ∧
      (parseCommentF render n p s).exit = false ∧
      (parseCommentF render n p s).bufInnerHtml =
        s.bufInnerHtml ++ renderAll render n.preorder ∧
      (parseCommentF render n p s).comment.Text = s.comment.Text) ∧
    (∀ (cs : List Node) (p : Path) (i : Nat) (s : CommentWalk),
      (∀ x ∈ preorderList cs,
        isClassed "comment-text" x = false ∧ isClassed "datetime" x = false) →
      s.nAnchor = some a → a.length ≤ p.length → s.exit = false →
      (parseCommentLoop render cs p i s).nAnchor = some a ∧
      (parseCommentLoop render cs p i s).exit = false ∧
      (parseCommentLoop render cs p i s).bufInnerHtml =
        s.bufInnerHtml ++ renderAll render (preorderList cs) ∧
      (parseCommentLoop render cs p i s).comment.Text = s.comment.Text) := by
  apply Node.induction
  · intro t d at0 cs ih p s h ha hlen he
    rw [preorder_mk] at h
    obtain ⟨hct, hdt⟩ := h _ (List.mem_cons_self _ _)
    have hpa : p ≠ a := fun e => by rw [e] at hlen; exact Nat.lt_irrefl _ hlen
    have e1 : (parseCommentEnter render p (Node.mk t d at0 cs) s).nAnchor = some a := by
      rw [parseCommentEnter_nAnchor, hct, ha]; rfl
    have e2 : (parseCommentEnter render p (Node.mk t d at0 cs) s).exit = false := by
      rw [parseCommentEnter_exit, hdt, he]; rfl
    have e3 : (parseCommentEnter render p (Node.mk t d at0 cs) s).bufInnerHtml
        = s.bufInnerHtml ++ render (Node.mk t d at0 cs) := by
      rw [parseCommentEnter_buf, hct, ha]
      simp [hpa]
    have e4 := parseCommentEnter_text render p (Node.mk t d at0 cs) s
    obtain ⟨l1, l2, l3, l4⟩ := ih p 0 _ (fun x hx => h x (List.mem_cons_of_mem _ hx)) e1
      (Nat.le_of_lt hlen) e2
    rw [parseCommentF_mk, parseCommentLeave_of_ne _ _
      (by rw [l1]; exact fun hc => hpa (Option.some.inj hc).symm)]
    refine ⟨l1, l2, ?_, l4.trans e4⟩
    rw [l3, e3, preorder_mk, renderAll, String.append_assoc]
  · intro p i s _ ha _ he
    rw [parseCommentLoop_nil, preorderList_nil, renderAll, String.append_empty]
    exact ⟨ha, he, rfl, rfl⟩
  · intro c rest ihc ihr p i s h ha hlen he
    rw [preorderList_cons] at h
    have he2 : ¬ s.exit = true := by rw [he]; exact Bool.false_ne_true
    rw [parseCommentLoop_cons, if_neg he2]
    obtain ⟨c1, c2, c3, c4⟩ := ihc (p ++ [i]) s
      (fun x hx => h x (List.mem_append_left _ hx)) ha
      (by rw [List.length_append]; exact Nat.lt_succ_of_le hlen) he
    obtain ⟨r1, r2, r3, r4⟩ := ihr p (i + 1) _
      (fun x hx => h x (List.mem_append_right _ hx)) c1 hlen c2
    refine ⟨r1, r2, ?_, r4.trans c4⟩
    rw [r3, c3, preorderList_cons, renderAll_append, String.append_assoc]

/-- Among the positioned nodes below the children of a node, those whose position is an
    initial part of the position of a given one of them are as many as that position is
    deeper than the node. -/
theorem preorderAt_count_above :
    (∀ (n : Node) (p q : Path), (∃ x, (q, x) ∈ preorderAt n p) →
      (preorderAt n p).countP (fun y => decide (y.1 <+: q)) = q.length - p.length + 1) ∧
    (∀ (cs : List Node) (p : Path) (i : Nat) (q : Path),
      (∃ x, (q, x) ∈ preorderAtList cs p i) →
      (preorderAtList cs p i).countP (fun y => decide (y.1 <+: q)) = q.length - p.length) := by
  apply Node.induction
  · intro t d a cs ih p q hq
    obtain ⟨x, hx⟩ := hq
    rw [preorderAt_mk] at hx ⊢
    rcases List.mem_cons.1 hx with hx | hx
    · have hqp : q = p := (Prod.mk.inj hx).1
      subst hqp
      rw [List.countP_cons_of_pos _ _ (by simp), Nat.sub_self, Nat.zero_add]
      have hzero : (preorderAtList cs q 0).countP (fun y => decide (y.1 <+: q)) = 0 := by
        rw [List.countP_eq_zero]
        intro y hy hpre
        obtain ⟨j, _, hj⟩ := preorderAt_extends.2 cs q 0 y hy
        have h1 := hj.length_le
        have h2 := (of_decide_eq_true hpre : y.1 <+: q).length_le
        rw [List.length_append] at h1
        simp at h1
        omega
      rw [hzero]
    · obtain ⟨j, _, hj⟩ := preorderAt_extends.2 cs p 0 (q, x) hx
      have hpq : p <+: q := (List.prefix_append p [j]).trans hj
      have hlen := hj.length_le
      rw [List.length_append] at hlen
      simp at hlen
      rw [List.countP_cons_of_pos _ _ (by simpa using hpq), ih p 0 q ⟨x, hx⟩]
  · intro p i q hq
    obtain ⟨x, hx⟩ := hq
    rw [preorderAtList_nil] at hx
    cases hx
  · intro c rest ihc ihr p i q hq
    obtain ⟨x, hx⟩ := hq
    rw [preorderAtList_cons] at hx ⊢
    rw [List.countP_append]
    rcases List.mem_append.1 hx with hx | hx
    · have hq1 := preorderAt_extends.1 c (p ++ [i]) (q, x) hx
      have hlen := hq1.length_le
      rw [List.length_append] at hlen
      simp at hlen
      have hzero : (preorderAtList rest p (i + 1)).countP (fun y => decide (y.1 <+: q)) = 0 := by
        rw [List.countP_eq_zero]
        intro y hy hpre
        obtain ⟨j, hij, hj⟩ := preorderAt_extends.2 rest p (i + 1) y hy
        exact path_child_ne (show i ≠ j by omega) hq1
          (hj.trans (of_decide_eq_true hpre))
      rw [hzero, ihc (p ++ [i]) q ⟨x, hx⟩, List.length_append]
      simp
      omega
    · obtain ⟨j, hij, hq2⟩ := preorderAt_extends.2 rest p (i + 1) (q, x) hx
      have hzero : (preorderAt c (p ++ [i])).countP (fun y => decide (y.1 <+: q)) = 0 := by
        rw [List.countP_eq_zero]
        intro y hy hpre
        have hy1 := preorderAt_extends.1 c (p ++ [i]) y hy
        exact path_child_ne (show i ≠ j by omega)
          (hy1.trans (of_decide_eq_true hpre)) hq2
      rw [hzero, ihr p (i + 1) q ⟨x, hx⟩, Nat.zero_add]

theorem preorderList_leaves (l : List Node) (h : ∀ x ∈ l, x.children = []) :
    preorderList l = l := by
  induction l with
  | nil => exact preorderList_nil
  | cons x xs ih =>
    have hx := h x (List.mem_cons_self _ _)
    cases x with
    | mk t d a cs =>
      have hcs : cs = [] := hx
      subst hcs
      rw [preorderList_cons, preorder_mk, preorderList_nil,
        ih (fun y hy => h y (List.mem_cons_of_mem _ hy))]
      rfl

/-- The traversal of an anchor without comment-text and datetime element below it: the
    text is the buffer so far followed by one serialization per node below the anchor, in
    pre-order. -/
theorem parseCommentF_anchor_body (render : Node → String) (anchor : Node) (p : Path)
    (s : CommentWalk)
    (hA : isClassed "comment-text" anchor = true) (hAd : isClassed "datetime" anchor = false)
    (hin : ∀ x ∈ preorderList anchor.children,
      isClassed "comment-text" x = false ∧ isClassed "datetime" x = false)
    (he : s.exit = false) :
    (parseCommentF render anchor p s).comment.Text =
        s.bufInnerHtml ++ renderAll render (preorderList anchor.children) ∧
    (parseCommentF render anchor p s).comment.DataID = getRequiredDataAttr "data-id" anchor ∧
    (parseCommentF render anchor p s).nAnchor = none := by
  cases anchor with
  | mk t d a cs =>
    have hin2 : ∀ x ∈ preorderList cs,
        isClassed "comment-text" x = false ∧ isClassed "datetime" x = false := hin
    have e1 : (parseCommentEnter render p (Node.mk t d a cs) s).nAnchor = some p := by
      rw [parseCommentEnter_nAnchor, if_pos hA]
    have e2 : (parseCommentEnter render p (Node.mk t d a cs) s).exit = false := by
      rw [parseCommentEnter_exit, hAd, he]; rfl
    have e3 : (parseCommentEnter render p (Node.mk t d a cs) s).bufInnerHtml
        = s.bufInnerHtml := by
      rw [parseCommentEnter_buf, if_pos hA]
      simp
    have e5 : (parseCommentEnter render p (Node.mk t d a cs) s).comment.DataID
        = getRequiredDataAttr "data-id" (Node.mk t d a cs) := by
      rw [parseCommentEnter_dataID, if_pos hA]
    obtain ⟨l1, _, l3, _⟩ :=
      (parseCommentF_inside_anchor render p).2 cs p 0 _ hin2 e1 (le_refl _) e2
    have l5 := (parseCommentF_keeps render (fun s => s.comment.DataID)
      (fun x => isClassed "comment-text" x = false)
      (fun p n s hn => by
        show (parseCommentEnter render p n s).comment.DataID = _
        rw [parseCommentEnter_dataID, hn]; rfl)
      (fun p s => (parseCommentLeave_fields p s).2.2.1)).2 cs p 0
      (parseCommentEnter render p (Node.mk t d a cs) s) (fun x hx => (hin2 x hx).1)
    rw [parseCommentF_mk, parseCommentLeave, if_pos l1]
    refine ⟨?_, ?_, rfl⟩
    · show (parseCommentLoop render cs p 0 _).bufInnerHtml = _
      rw [l3, e3]
      rfl
    · show (parseCommentLoop render cs p 0 _).comment.DataID = _
      exact l5.trans e5

/-- Claim C19, as stated, fails: in `stampFirstRecord` the only comment-text element holds
    no datetime element, but a datetime element precedes it; the traversal stops there, the
    anchor is never reached and the text is empty, not `<p>x</p>x`. -/
theorem C19_counterexample_datetime_before_anchor :
    (parseComment renderNode stampFirstRecord).Text = "" ∧
    renderAll renderNode
      (preorderList (classed "div" "comment-text" [element "p" [] [textNode "x"]]).children) =
      "<p>x</p>x" ∧
    (parseComment renderNode stampFirstRecord).Text ≠
      renderAll renderNode
        (preorderList (classed "div" "comment-text" [element "p" [] [textNode "x"]]).children) :=
  ⟨by decide, by decide, by decide⟩

/-- Claim C19, amended: let `anchor` be the only element classed comment-text of the
    record, with no datetime element before it in pre-order, not classed datetime itself
    and with no datetime element below it. Then the text is the concatenation, in
    pre-order, of one full serialization for every node below `anchor`, `anchor` itself not
    being serialized; and every node below `anchor` lies in as many of the serialized
    subtrees as it is deep below `anchor` (positions are taken from `anchor`, so their
    length is the depth). -/
theorem C19_body_protocol (render : Node → String) (r anchor : Node)
    (before after : List Node)
    (hpos : r.preorder = before ++ anchor :: (preorderList anchor.children ++ after))
    (hbefore : ∀ x ∈ before,
      isClassed "comment-text" x = false ∧ isClassed "datetime" x = false)
    (hA : isClassed "comment-text" anchor = true) (hAd : isClassed "datetime" anchor = false)
    (hin : ∀ x ∈ preorderList anchor.children,
      isClassed "comment-text" x = false ∧ isClassed "datetime" x = false)
    (hafter : ∀ x ∈ after, isClassed "comment-text" x = false) :
    (parseComment render r).Text = renderAll render (preorderList anchor.children) ∧
    (preorderAtList anchor.children [] 0).map Prod.snd = preorderList anchor.children ∧
    (∀ qx ∈ preorderAtList anchor.children [] 0,
      (preorderAtList anchor.children [] 0).countP (fun y => decide (y.1 <+: qx.1)) =
        qx.1.length) := by
  refine ⟨?_, preorderAt_map_snd.2 anchor.children [] 0, fun qx hqx => ?_⟩
  · have hanchor : ∀ (p : Path) (s : CommentWalk),
        s.nAnchor = none → s.exit = false → s.bufInnerHtml = "" →
        (parseCommentF render anchor p s).comment.Text =
          renderAll render (preorderList anchor.children) ∧
        (parseCommentF render anchor p s).comment.DataID =
          getRequiredDataAttr "data-id" anchor ∧
        (parseCommentF render anchor p s).nAnchor = none := by
      intro p s _ he hb
      obtain ⟨h1, h2, h3⟩ := parseCommentF_anchor_body render anchor p s hA hAd hin he
      rw [hb, String.empty_append] at h1
      exact ⟨h1, h2, h3⟩
    exact ((parseCommentF_reach_anchor render anchor _ _ hanchor).1 r [] {} before after
      hpos hbefore hafter rfl rfl rfl).1
  · have h := preorderAt_count_above.2 anchor.children [] 0 qx.1 ⟨qx.2, hqx⟩
    rw [h]
    rfl

/-- Claim C19, amended, applied to `nestedBodyRecord`: the paragraph, at depth 1, is
    serialized once; the text `there`, at depth 3, lies in three serialized subtrees. -/
theorem C19_body_protocol_witness :
    (parseComment renderNode nestedBodyRecord).Text =
      "<p>Hi <b>there</b></p>Hi <b>there</b>there" ∧
    (preorderAtList
        [element "p" [] [textNode "Hi ", element "b" [] [textNode "there"]]] [] 0).countP
      (fun y => decide (y.1 <+: [0, 1, 0])) = 3 :=
  ⟨(C19_body_protocol renderNode nestedBodyRecord
      (element "div"
        [{ Key := "class", Val := "comment-text" }, { Key := "data-id", Val := "c7" }]
        [element "p" [] [textNode "Hi ", element "b" [] [textNode "there"]]])
      [nestedBodyRecord] [] (by rfl) (by decide) (by decide) (by decide) (by decide)
      (by decide)).1.trans (by decide),
   (C19_body_protocol renderNode nestedBodyRecord
      (element "div"
        [{ Key := "class", Val := "comment-text" }, { Key := "data-id", Val := "c7" }]
        [element "p" [] [textNode "Hi ", element "b" [] [textNode "there"]]])
      [nestedBodyRecord] [] (by rfl) (by decide) (by decide) (by decide) (by decide)
      (by decide)).2.2 ([0, 1, 0], textNode "there") (by simp [preorderAtList, preorderAt, element, textNode])⟩

/-- The traversal of an anchor that holds, after childless children, a second comment-text
    element whose children are childless: the inner element takes over as anchor, and the
    text is fixed when the traversal leaves the inner element. -/
theorem parseCommentF_nested_anchor (render : Node → String) (outer inner : Node)
    (pre post : List Node) (p : Path) (s : CommentWalk)
    (hA : isClassed "comment-text" outer = true) (hAd : isClassed "datetime" outer = false)
    (hch : outer.children = pre ++ inner :: post)
    (hpre : ∀ x ∈ pre, x.children = [] ∧ isClassed "comment-text" x = false ∧
      isClassed "datetime" x = false)
    (hB : isClassed "comment-text" inner = true) (hBd : isClassed "datetime" inner = false)
    (hinner : ∀ x ∈ inner.children, x.children = [] ∧ isClassed "comment-text" x = false ∧
      isClassed "datetime" x = false)
    (hpost : ∀ x ∈ preorderList post, isClassed "comment-text" x = false)
    (he : s.exit = false) :
    (parseCommentF render outer p s).comment.Text =
        s.bufInnerHtml ++ renderAll render pre ++ renderAll render inner.children ∧
    (parseCommentF render outer p s).comment.DataID = getRequiredDataAttr "data-id" inner ∧
    (parseCommentF render outer p s).nAnchor = none := by
  have hid := parseCommentF_keeps render (fun s => s.comment.DataID)
    (fun x => isClassed "comment-text" x = false)
    (fun p n s hn => by
      show (parseCommentEnter render p n s).comment.DataID = _
      rw [parseCommentEnter_dataID, hn]; rfl)
    (fun p s => (parseCommentLeave_fields p s).2.2.1)
  cases outer with
  | mk t d a cs =>
    have hcs : cs = pre ++ inner :: post := hch
    subst hcs
    have e1 : (parseCommentEnter render p (Node.mk t d a (pre ++ inner :: post)) s).nAnchor
        = some p := by
      rw [parseCommentEnter_nAnchor, if_pos hA]
    have e2 : (parseCommentEnter render p (Node.mk t d a (pre ++ inner :: post)) s).exit
        = false := by
      rw [parseCommentEnter_exit, hAd, he]; rfl
    have e3 : (parseCommentEnter render p
        (Node.mk t d a (pre ++ inner :: post)) s).bufInnerHtml = s.bufInnerHtml := by
      rw [parseCommentEnter_buf, if_pos hA]
      simp
    obtain ⟨s2, q1, q2, q3, q4, _⟩ :=
      parseCommentLoop_leaves render p (inner :: post) pre 0 _ hpre e1 e2
    have he3 : ¬ s2.exit = true := by rw [q3]; exact Bool.false_ne_true
    -- the inner element, at position `p ++ [0 + pre.length]`
    have hinnerF :
        (parseCommentF render inner (p ++ [0 + pre.length]) s2).comment.Text =
          s2.bufInnerHtml ++ renderAll render inner.children ∧
        (parseCommentF render inner (p ++ [0 + pre.length]) s2).comment.DataID =
          getRequiredDataAttr "data-id" inner ∧
        (parseCommentF render inner (p ++ [0 + pre.length]) s2).nAnchor = none := by
      have hin : ∀ x ∈ preorderList inner.children,
          isClassed "comment-text" x = false ∧ isClassed "datetime" x = false := by
        rw [preorderList_leaves inner.children (fun x hx => (hinner x hx).1)]
        exact fun x hx => (hinner x hx).2
      have := parseCommentF_anchor_body render inner (p ++ [0 + pre.length]) s2 hB hBd hin q3
      rw [preorderList_leaves inner.children (fun x hx => (hinner x hx).1)] at this
      exact this
    obtain ⟨b1, b2, b3⟩ := hinnerF
    obtain ⟨r1, _, r3⟩ := (parseCommentF_no_anchor render).2 post p (0 + pre.length + 1)
      (parseCommentF render inner (p ++ [0 + pre.length]) s2) hpost b3
    have r2 := hid.2 post p (0 + pre.length + 1)
      (parseCommentF render inner (p ++ [0 + pre.length]) s2) hpost
    rw [parseCommentF_mk, q1, parseCommentLoop_cons, if_neg he3,
      parseCommentLeave_of_ne _ _ (by rw [r1]; exact Option.noConfusion)]
    refine ⟨?_, r2.trans b2, r1⟩
    rw [r3, b1, q4, e3]

/-- Claim C12, as stated, fails: in `nestedAnchorRecord` the nested comment-text element
    becomes the anchor; the text is fixed when the traversal leaves it and is `ab`, so the
    text `c` that follows the nested element is not in it, and data_id is that of the
    nested element. -/
theorem C12_counterexample_nested_anchor :
    (parseComment renderNode nestedAnchorRecord).Text = "ab" ∧
    (parseComment renderNode nestedAnchorRecord).DataID = "b1" ∧
    renderNode (textNode "c") = "c" ∧
    'c' ∉ (parseComment renderNode nestedAnchorRecord).Text.data :=
  ⟨by decide, by decide, by decide, by decide⟩

/-- Claim C12, amended: a nested comment-text element is anchored separately. Let `outer`
    be an element classed comment-text reached before any other comment-text or datetime
    element, and `inner` a child of it classed comment-text, neither classed datetime, the
    children of `outer` before `inner` and the children of `inner` being childless and not
    classed comment-text or datetime, with no further comment-text element after `inner`.
    Then `inner` replaces `outer` as anchor: the text is fixed when the traversal leaves
    `inner` and holds the serializations of the children of `outer` before `inner` and of
    the children of `inner`; what follows `inner` below `outer` is not written, and data_id
    is the `data-id` attribute of `inner`. -/
theorem C12_nested_comment_text_anchored (render : Node → String) (r outer inner : Node)
    (before after pre post : List Node)
    (hpos : r.preorder = before ++ outer :: (preorderList outer.children ++ after))
    (hbefore : ∀ x ∈ before,
      isClassed "comment-text" x = false ∧ isClassed "datetime" x = false)
    (hA : isClassed "comment-text" outer = true) (hAd : isClassed "datetime" outer = false)
    (hch : outer.children = pre ++ inner :: post)
    (hpre : ∀ x ∈ pre, x.children = [] ∧ isClassed "comment-text" x = false ∧
      isClassed "datetime" x = false)
    (hB : isClassed "comment-text" inner = true) (hBd : isClassed "datetime" inner = false)
    (hinner : ∀ x ∈ inner.children, x.children = [] ∧ isClassed "comment-text" x = false ∧
      isClassed "datetime" x = false)
    (hpost : ∀ x ∈ preorderList post, isClassed "comment-text" x = false)
    (hafter : ∀ x ∈ after, isClassed "comment-text" x = false) :
    (parseComment render r).Text = renderAll render pre ++ renderAll render inner.children ∧
    (parseComment render r).DataID = getRequiredDataAttr "data-id" inner := by
  have hanchor : ∀ (p : Path) (s : CommentWalk),
      s.nAnchor = none → s.exit = false → s.bufInnerHtml = "" →
      (parseCommentF render outer p s).comment.Text =
        renderAll render pre ++ renderAll render inner.children ∧
      (parseCommentF render outer p s).comment.DataID =
        getRequiredDataAttr "data-id" inner ∧
      (parseCommentF render outer p s).nAnchor = none := by
    intro p s _ he hb
    obtain ⟨h1, h2, h3⟩ := parseCommentF_nested_anchor render outer inner pre post p s
      hA hAd hch hpre hB hBd hinner hpost he
    rw [hb, String.empty_append] at h1
    exact ⟨h1, h2, h3⟩
  obtain ⟨h1, h2, _⟩ := (parseCommentF_reach_anchor render outer _ _ hanchor).1 r [] {}
    before after hpos hbefore hafter rfl rfl rfl
  exact ⟨h1, h2⟩

/-- Claim C12, amended, applied to `nestedAnchorRecord`. -/
theorem C12_nested_comment_text_anchored_witness :
    (parseComment renderNode nestedAnchorRecord).Text =
      renderAll renderNode [textNode "a"] ++ renderAll renderNode [textNode "b"] ∧
    (parseComment renderNode nestedAnchorRecord).DataID = "b1" :=
  C12_nested_comment_text_anchored renderNode nestedAnchorRecord outerAnchor
    (element "span" [{ Key := "class", Val := "comment-text" }, { Key := "data-id", Val := "b1" }]
      [textNode "b"])
    [nestedAnchorRecord] [] [textNode "a"] [textNode "c"]
    (by rfl) (by decide) (by decide) (by decide) (by rfl)
    (by simp [textNode, Node.children]; decide) (by decide) (by decide)
    (by simp [textNode, element, Node.children]; decide) (by decide) (by decide)

/-! ### Records that agree up to the first datetime element -/

theorem isClassed_of_sameLabel (cls : String) (n1 n2 : Node) (h : SameLabel n1 n2) :
    isClassed cls n1 = isClassed cls n2 := by
  rw [isClassed, isClassed, nodeHasRequiredCssClass, nodeHasRequiredCssClass, h.1, h.2.1]

theorem parseCommentLeave_nAnchor (p : Path) (s : CommentWalk) :
    (parseCommentLeave p s).nAnchor = if s.nAnchor = some p then none else s.nAnchor := by
  rw [parseCommentLeave]
  split_ifs <;> rfl

theorem sameFields_enter (render : Node → String) (p : Path) (n1 n2 : Node)
    (s1 s2 : CommentWalk) (hl : SameLabel n1 n2) (h : SameFields s1 s2) :
    SameFields (parseCommentEnter render p n1 s1) (parseCommentEnter render p n2 s2) := by
  obtain ⟨h1, h2, h3, h4, h5, h6⟩ := h
  have hid : getRequiredDataAttr "data-id" n1 = getRequiredDataAttr "data-id" n2 := by
    rw [getRequiredDataAttr, getRequiredDataAttr, hl.2.1]
  refine ⟨?_, ?_, ?_, ?_, ?_, ?_⟩
  · rw [parseCommentEnter_nAnchor, parseCommentEnter_nAnchor,
      isClassed_of_sameLabel _ n1 n2 hl, h1]
  · rw [parseCommentEnter_exit, parseCommentEnter_exit, isClassed_of_sameLabel _ n1 n2 hl, h2]
  · rw [parseCommentEnter_username, parseCommentEnter_username,
      isClassed_of_sameLabel _ n1 n2 hl, hl.2.2, h3]
  · rw [parseCommentEnter_role, parseCommentEnter_role,
      isClassed_of_sameLabel _ n1 n2 hl, hl.2.2, h4]
  · rw [parseCommentEnter_dataID, parseCommentEnter_dataID,
      isClassed_of_sameLabel _ n1 n2 hl, hid, h5]
  · rw [parseCommentEnter_datetime, parseCommentEnter_datetime,
      isClassed_of_sameLabel _ n1 n2 hl, hl.2.2, h6]

theorem sameFields_leave (p : Path) (s1 s2 : CommentWalk) (h : SameFields s1 s2) :
    SameFields (parseCommentLeave p s1) (parseCommentLeave p s2) := by
  obtain ⟨h1, h2, h3, h4, h5, h6⟩ := h
  obtain ⟨a1, a2, a3, a4, a5⟩ := parseCommentLeave_fields p s1
  obtain ⟨b1, b2, b3, b4, b5⟩ := parseCommentLeave_fields p s2
  refine ⟨?_, ?_, ?_, ?_, ?_, ?_⟩
  · rw [parseCommentLeave_nAnchor, parseCommentLeave_nAnchor, h1]
  · rw [a5, b5, h2]
  · rw [a1, b1, h3]
  · rw [a2, b2, h4]
  · rw [a3, b3, h5]
  · rw [a4, b4, h6]

/-- The traversal of one and the same subtree from two states that agree on the fields
    ends in two states that agree on the fields. -/
theorem sameFields_parseCommentF (render : Node → String) :
    (∀ (n : Node) (p : Path) (s1 s2 : CommentWalk), SameFields s1 s2 →
      SameFields (parseCommentF render n p s1) (parseCommentF render n p s2)) ∧
    (∀ (cs : List Node) (p : Path) (i : Nat) (s1 s2 : CommentWalk), SameFields s1 s2 →
      SameFields (parseCommentLoop render cs p i s1) (parseCommentLoop render cs p i s2)) := by
  apply Node.induction
  · intro t d a cs ih p s1 s2 h
    rw [parseCommentF_mk, parseCommentF_mk]
    exact sameFields_leave p _ _ (ih p 0 _ _
      (sameFields_enter render p _ _ s1 s2 ⟨rfl, rfl, rfl⟩ h))
  · intro p i s1 s2 h
    rw [parseCommentLoop_nil, parseCommentLoop_nil]
    exact h
  · intro c rest ihc ihr p i s1 s2 h
    rw [parseCommentLoop_cons, parseCommentLoop_cons, ← h.2.1]
    split_ifs
    · exact h
    · exact ihr p (i + 1) _ _ (ihc (p ++ [i]) s1 s2 h)

/-- The loop over a list of children, cut in two. -/
theorem parseCommentLoop_append (render : Node → String) (xs ys : List Node) (p : Path) :
    ∀ (i : Nat) (s : CommentWalk),
      parseCommentLoop render (xs ++ ys) p i s =
        parseCommentLoop render ys p (i + xs.length) (parseCommentLoop render xs p i s) := by
  induction xs with
  | nil => intro i s; rw [List.nil_append, parseCommentLoop_nil]; rfl
  | cons x xs ih =>
    intro i s
    rw [List.cons_append, parseCommentLoop_cons, parseCommentLoop_cons]
    by_cases he : s.exit = true
    · rw [if_pos he, if_pos he, parseCommentLoop_exit render _ _ _ _ he]
    · rw [if_neg he, if_neg he, ih, List.length_cons]
      congr 1
      omega

/-- Up to the first datetime element the traversals of two trees that agree up to it run
    alike: from states that agree on the fields they end in states that agree on the
    fields, with the exit flag set. -/
theorem sameFields_of_agree (render : Node → String) (clear : Bool) (r1 r2 : Node)
    (h : AgreeToDatetime clear r1 r2) :
    ∀ (p : Path) (s1 s2 : CommentWalk), SameFields s1 s2 → s1.exit = false →
      SameFields (parseCommentF render r1 p s1) (parseCommentF render r2 p s2) ∧
      (parseCommentF render r1 p s1).exit = true := by
  induction h with
  | here d1 d2 hD hl =>
    intro p s1 s2 hs _
    have e1 : (parseCommentEnter render p d1 s1).exit = true := by
      rw [parseCommentEnter_exit, hD, Bool.or_true]
    have e2 : (parseCommentEnter render p d2 s2).exit = true := by
      rw [parseCommentEnter_exit, ← isClassed_of_sameLabel _ d1 d2 hl, hD, Bool.or_true]
    cases d1 with
    | mk t1 x1 a1 cs1 =>
      cases d2 with
      | mk t2 x2 a2 cs2 =>
        rw [parseCommentF_mk, parseCommentF_mk, parseCommentLoop_exit render _ _ _ _ e1,
          parseCommentLoop_exit render _ _ _ _ e2]
        exact ⟨sameFields_leave p _ _ (sameFields_enter render p _ _ s1 s2 hl hs),
          (parseCommentLeave_fields p _).2.2.2.2.trans e1⟩
  | step n1 n2 c1 c2 pre post1 post2 hnD hl _ hch1 hch2 hpre _ ih =>
    intro p s1 s2 hs he
    have hE := sameFields_enter render p n1 n2 s1 s2 hl hs
    have e1 : (parseCommentEnter render p n1 s1).exit = false := by
      rw [parseCommentEnter_exit, hnD, he]; rfl
    have hkeep := (parseCommentF_keeps render (fun s => s.exit)
      (fun x => isClassed "datetime" x = false)
      (fun p n s hn => by
        show (parseCommentEnter render p n s).exit = _
        rw [parseCommentEnter_exit, hn, Bool.or_false])
      (fun p s => (parseCommentLeave_fields p s).2.2.2.2)).2 pre p 0
      (parseCommentEnter render p n1 s1) hpre
    have hM := (sameFields_parseCommentF render).2 pre p 0 _ _ hE
    have m1 : (parseCommentLoop render pre p 0 (parseCommentEnter render p n1 s1)).exit
        = false := hkeep.trans e1
    have m2 : (parseCommentLoop render pre p 0 (parseCommentEnter render p n2 s2)).exit
        = false := hM.2.1.symm.trans m1
    obtain ⟨ih1, ih2⟩ := ih (p ++ [0 + pre.length]) _ _ hM m1
    have ih3 : (parseCommentF render c2 (p ++ [0 + pre.length])
        (parseCommentLoop render pre p 0 (parseCommentEnter render p n2 s2))).exit = true :=
      ih1.2.1.symm.trans ih2
    cases n1 with
    | mk t1 x1 a1 cs1 =>
      cases n2 with
      | mk t2 x2 a2 cs2 =>
        have hcs1 : cs1 = pre ++ c1 :: post1 := hch1
        have hcs2 : cs2 = pre ++ c2 :: post2 := hch2
        subst hcs1
        subst hcs2
        rw [parseCommentF_mk, parseCommentF_mk, parseCommentLoop_append,
          parseCommentLoop_append, parseCommentLoop_cons, parseCommentLoop_cons,
          if_neg (by rw [m1]; exact Bool.false_ne_true),
          if_neg (by rw [m2]; exact Bool.false_ne_true),
          parseCommentLoop_exit render _ _ _ _ ih2, parseCommentLoop_exit render _ _ _ _ ih3]
        exact ⟨sameFields_leave p _ _ ih1, (parseCommentLeave_fields p _).2.2.2.2.trans ih2⟩

/-- An anchor set above the node being traversed is still set, or no anchor is set, when
    the traversal of the node is over: an anchor set below is cleared on the way back. -/
theorem parseCommentF_anchor_above (render : Node → String) :
    (∀ (n : Node) (p : Path) (s : CommentWalk),
      (∀ a, s.nAnchor = some a → a.length < p.length) →
      (parseCommentF render n p s).nAnchor = s.nAnchor ∨
        (parseCommentF render n p s).nAnchor = none) ∧
    (∀ (cs : List Node) (p : Path) (i : Nat) (s : CommentWalk),
      (∀ a, s.nAnchor = some a → a.length ≤ p.length) →
      (parseCommentLoop render cs p i s).nAnchor = s.nAnchor ∨
        (parseCommentLoop render cs p i s).nAnchor = none) := by
  apply Node.induction
  · intro t d a cs ih p s hs
    rw [parseCommentF_mk, parseCommentLeave_nAnchor]
    have hE := parseCommentEnter_nAnchor render p (Node.mk t d a cs) s
    by_cases hct : isClassed "comment-text" (Node.mk t d a cs) = true
    · rw [if_pos hct] at hE
      rcases ih p 0 _ (fun b hb => by
        rw [hE] at hb; rw [← Option.some.inj hb]) with h | h
      · rw [h, hE, if_pos rfl]
        exact Or.inr rfl
      · rw [h]
        exact Or.inr (by simp)
    · rw [if_neg hct] at hE
      rcases ih p 0 _ (fun b hb => by
        rw [hE] at hb; exact Nat.le_of_lt (hs b hb)) with h | h
      · rw [h, hE]
        refine Or.inl ?_
        rw [if_neg]
        intro hc
        exact Nat.lt_irrefl _ (hs p hc)
      · rw [h]
        exact Or.inr (by simp)
  · intro p i s _
    rw [parseCommentLoop_nil]
    exact Or.inl rfl
  · intro c rest ihc ihr p i s hs
    rw [parseCommentLoop_cons]
    split_ifs
    · exact Or.inl rfl
    · have hc := ihc (p ++ [i]) s (fun a ha => by
        rw [List.length_append]
        exact Nat.lt_succ_of_le (hs a ha))
      have hr := ihr p (i + 1) (parseCommentF render c (p ++ [i]) s) (fun a ha => by
        rcases hc with h | h
        · rw [h] at ha; exact hs a ha
        · rw [h] at ha; cases ha)
      rcases hr with h | h
      · rw [h]; exact hc
      · exact Or.inr h

theorem commentWalk_ext (s1 s2 : CommentWalk)
    (h1 : s1.comment.Username = s2.comment.Username) (h2 : s1.comment.Role = s2.comment.Role)
    (h3 : s1.comment.Text = s2.comment.Text) (h4 : s1.comment.Datetime = s2.comment.Datetime)
    (h5 : s1.comment.DataID = s2.comment.DataID) (h6 : s1.nAnchor = s2.nAnchor)
    (h7 : s1.bufInnerHtml = s2.bufInnerHtml) (h8 : s1.exit = s2.exit) : s1 = s2 := by
  cases s1 with
  | mk c1 a1 b1 e1 =>
    cases s2 with
    | mk c2 a2 b2 e2 =>
      cases c1
      cases c2
      simp only at h1 h2 h3 h4 h5 h6 h7 h8
      subst h1 h2 h3 h4 h5 h6 h7 h8
      rfl

/-- While no anchor is set, the entering step does the same at two nodes that look alike:
    neither is serialized. -/
theorem parseCommentEnter_of_sameLabel (render : Node → String) (p : Path) (n1 n2 : Node)
    (s : CommentWalk) (hl : SameLabel n1 n2) (ha : s.nAnchor = none) :
    parseCommentEnter render p n1 s = parseCommentEnter render p n2 s := by
  have hF := sameFields_enter render p n1 n2 s s hl ⟨rfl, rfl, rfl, rfl, rfl, rfl⟩
  obtain ⟨f1, f2, f3, f4, f5, f6⟩ := hF
  refine commentWalk_ext _ _ f3 f4 ?_ f6 f5 f1 ?_ f2
  · rw [parseCommentEnter_text, parseCommentEnter_text]
  · rw [parseCommentEnter_buf, parseCommentEnter_buf, isClassed_of_sameLabel _ n1 n2 hl, ha]
    by_cases hct : isClassed "comment-text" n2 = true
    · simp [hct]
    · simp [hct]

/-- When no node above the first datetime element is classed comment-text, the traversals
    of two trees that agree up to it end in the same state. -/
theorem parseCommentF_of_agree_clear (render : Node → String) (r1 r2 : Node)
    (h : AgreeToDatetime true r1 r2) :
    ∀ (p : Path) (s : CommentWalk), s.nAnchor = none → s.exit = false →
      parseCommentF render r1 p s = parseCommentF render r2 p s ∧
      (parseCommentF render r1 p s).exit = true := by
  induction h with
  | here d1 d2 hD hl =>
    intro p s ha _
    have hE := parseCommentEnter_of_sameLabel render p d1 d2 s hl ha
    have e1 : (parseCommentEnter render p d1 s).exit = true := by
      rw [parseCommentEnter_exit, hD, Bool.or_true]
    have e2 : (parseCommentEnter render p d2 s).exit = true := by
      rw [← hE]; exact e1
    cases d1 with
    | mk t1 x1 a1 cs1 =>
      cases d2 with
      | mk t2 x2 a2 cs2 =>
        rw [parseCommentF_mk, parseCommentF_mk, parseCommentLoop_exit render _ _ _ _ e1,
          parseCommentLoop_exit render _ _ _ _ e2, hE]
        exact ⟨rfl, (parseCommentLeave_fields p _).2.2.2.2.trans e2⟩
  | step n1 n2 c1 c2 pre post1 post2 hnD hl hclear hch1 hch2 hpre _ ih =>
    intro p s ha he
    have hE := parseCommentEnter_of_sameLabel render p n1 n2 s hl ha
    have e0 : (parseCommentEnter render p n1 s).nAnchor = none := by
      rw [parseCommentEnter_nAnchor, hclear rfl, ha]; rfl
    have e1 : (parseCommentEnter render p n1 s).exit = false := by
      rw [parseCommentEnter_exit, hnD, he]; rfl
    have hkeep := (parseCommentF_keeps render (fun s => s.exit)
      (fun x => isClassed "datetime" x = false)
      (fun p n s hn => by
        show (parseCommentEnter render p n s).exit = _
        rw [parseCommentEnter_exit, hn, Bool.or_false])
      (fun p s => (parseCommentLeave_fields p s).2.2.2.2)).2 pre p 0
      (parseCommentEnter render p n1 s) hpre
    have m1 : (parseCommentLoop render pre p 0 (parseCommentEnter render p n1 s)).exit
        = false := hkeep.trans e1
    have m0 : (parseCommentLoop render pre p 0 (parseCommentEnter render p n1 s)).nAnchor
        = none := by
      rcases (parseCommentF_anchor_above render).2 pre p 0 (parseCommentEnter render p n1 s)
        (fun a ha2 => by rw [e0] at ha2; cases ha2) with h0 | h0
      · exact h0.trans e0
      · exact h0
    obtain ⟨ih1, ih2⟩ := ih (p ++ [0 + pre.length]) _ m0 m1
    cases n1 with
    | mk t1 x1 a1 cs1 =>
      cases n2 with
      | mk t2 x2 a2 cs2 =>
        have hcs1 : cs1 = pre ++ c1 :: post1 := hch1
        have hcs2 : cs2 = pre ++ c2 :: post2 := hch2
        subst hcs1
        subst hcs2
        have ih3 : (parseCommentF render c2 (p ++ [0 + pre.length])
            (parseCommentLoop render pre p 0
              (parseCommentEnter render p (Node.mk t1 x1 a1 (pre ++ c1 :: post1)) s))).exit
            = true := by
          rw [← ih1]; exact ih2
        rw [parseCommentF_mk, parseCommentF_mk, ← hE, parseCommentLoop_append,
          parseCommentLoop_append, parseCommentLoop_cons, parseCommentLoop_cons,
          if_neg (by rw [m1]; exact Bool.false_ne_true),
          if_neg (by rw [m1]; exact Bool.false_ne_true),
          parseCommentLoop_exit render _ _ _ _ ih2, parseCommentLoop_exit render _ _ _ _ ih3,
          ih1]
        exact ⟨rfl, (parseCommentLeave_fields p _).2.2.2.2.trans ih3⟩

/-- Claim C16, as stated, fails for text. In `userInStampRecord` the username element lies
    below the first datetime element, in `lateUserRecord` it follows it inside a `div`;
    either way it is never visited and username stays `""`, but the text holds the
    serialization of the node around it (the datetime element, the `div`) and is not the
    text of the record without that element. -/
theorem C16_counterexample_later_element_in_text :
    (parseComment renderNode userInStampRecord).Username = "" ∧
    (parseComment renderNode userInStampRecord).Text =
      "<span class=\"datetime\"><b class=\"username\">late</b>now</span>" ∧
    (parseComment renderNode userInStampRecordCut).Text =
      "<span class=\"datetime\">now</span>" ∧
    (parseComment renderNode userInStampRecord).Text ≠
      (parseComment renderNode userInStampRecordCut).Text ∧
    (parseComment renderNode lateUserRecord).Username = "" ∧
    (parseComment renderNode lateUserRecord).Text ≠
      (parseComment renderNode lateUserRecordCut).Text :=
  ⟨by decide, by decide, by decide, by decide, by decide, by decide⟩

/-- Claim C16, amended: the traversal stops at the first datetime element, so what comes
    after it in pre-order, its own children included, does not affect username, role,
    data_id and datetime: two records that agree up to their first datetime element give
    the same four fields. They give the same text too when no node above that datetime
    element is classed comment-text, so that no serialized subtree spans it. -/
theorem C16_fields_fixed_at_datetime (render : Node → String) (clear : Bool) (r1 r2 : Node)
    (h : AgreeToDatetime clear r1 r2) :
    (parseComment render r1).Username = (parseComment render r2).Username ∧
    (parseComment render r1).Role = (parseComment render r2).Role ∧
    (parseComment render r1).DataID = (parseComment render r2).DataID ∧
    (parseComment render r1).Datetime = (parseComment render r2).Datetime ∧
    (clear = true → (parseComment render r1).Text = (parseComment render r2).Text) := by
  obtain ⟨⟨_, _, f3, f4, f5, f6⟩, _⟩ :=
    sameFields_of_agree render clear r1 r2 h [] {} {} ⟨rfl, rfl, rfl, rfl, rfl, rfl⟩ rfl
  refine ⟨f3, f4, f5, f6, fun hc => ?_⟩
  subst hc
  show (parseCommentF render r1 [] {}).comment.Text = (parseCommentF render r2 [] {}).comment.Text
  rw [(parseCommentF_of_agree_clear render r1 r2 h [] {} rfl rfl).1]

/-- Claim C16, amended, applied: a username element right after the datetime element
    changes nothing at all (username stays `""`, the text stays the same); a username
    element after the datetime element inside the anchor leaves the four fields alone. -/
theorem C16_fields_fixed_at_datetime_witness :
    (parseComment renderNode stampThenUserRecord).Username = "" ∧
    (parseComment renderNode stampThenUserRecord).Text =
      (parseComment renderNode stampOnlyRecord).Text ∧
    (parseComment renderNode lateUserRecord).Username =
      (parseComment renderNode lateUserRecordCut).Username ∧
    (parseComment renderNode lateUserRecord).DataID =
      (parseComment renderNode lateUserRecordCut).DataID :=
  have h1 : AgreeToDatetime true stampThenUserRecord stampOnlyRecord :=
    AgreeToDatetime.step stampThenUserRecord stampOnlyRecord nowStamp nowStamp []
      [classed "span" "username" [textNode "late"]] []
      (by decide) ⟨rfl, rfl, rfl⟩ (fun _ => by decide) rfl rfl (by decide)
      (AgreeToDatetime.here nowStamp nowStamp (by decide) ⟨rfl, rfl, rfl⟩)
  have h2 : AgreeToDatetime false lateUserRecord lateUserRecordCut :=
    AgreeToDatetime.step lateUserRecord lateUserRecordCut
      (classed "div" "comment-text" [stampThenLate])
      (classed "div" "comment-text" [element "div" [] [nowStamp]]) [] [] []
      (by decide) ⟨rfl, rfl, rfl⟩ (fun hc => by cases hc) rfl rfl (by decide)
      (AgreeToDatetime.step _ _ stampThenLate (element "div" [] [nowStamp]) [] [] []
        (by decide) ⟨rfl, rfl, rfl⟩ (fun hc => by cases hc) rfl rfl (by decide)
        (AgreeToDatetime.step _ _ nowStamp nowStamp []
          [classed "span" "username" [textNode "late"]] []
          (by decide) ⟨rfl, rfl, rfl⟩ (fun hc => by cases hc) rfl rfl (by decide)
          (AgreeToDatetime.here nowStamp nowStamp (by decide) ⟨rfl, rfl, rfl⟩)))
  ⟨(C16_fields_fixed_at_datetime renderNode true _ _ h1).1.trans (by decide),
   (C16_fields_fixed_at_datetime renderNode true _ _ h1).2.2.2.2 rfl,
   (C16_fields_fixed_at_datetime renderNode false _ _ h2).1,
   (C16_fields_fixed_at_datetime renderNode false _ _ h2).2.2.1⟩

end FctParser
